import Mathlib

/-!
# TeaWeb agent runtime (`teaagent/boot.go`): reconciliation, config download, event channels

A shallow embedding of the agent runtime of `src/teaagent/boot.go`.

* The process-global variables (`connectConfig`, `runningAgent`, `runningTasks`,
  `runningItems`, `isBooting`) are the fields of one explicit state record `Agent`.
* Go maps are association lists read with first-match lookup (`mapGet`), written with
  `mapSet` and `mapDelete`.
* Pointer identity of executors (`*Task`, `*Item`) is a number `uid`, drawn from the counter
  `Agent.nextUid` by `NewTask` / `NewItem`.
* Calls into code that is not part of `boot.go` (executor `Stop` / `Schedule` / `RunLog`,
  `GenerateAgain`, `file.Delete`) are recorded, in call order, in `Agent.trace`.
* Outcomes of the network, of the parsers and of the file system are explicit inputs.
-/

namespace TeaAgent

/-! ## Configuration data (package `agents`) -/

/-- Task configuration `agents.TaskConfig`, reduced to the fields `boot.go` reads. -/
structure TaskConfig where
  Id : String
  Name : String
  On : Bool
  Version : Nat
  Schedule : String
  IsBooting : Bool
  deriving DecidableEq, Repr

/-- Item configuration `agents.Item`, reduced to the fields `boot.go` reads. -/
structure ItemConfig where
  Id : String
  Name : String
  On : Bool
  deriving DecidableEq, Repr

/-- App configuration `agents.AppConfig`. -/
structure AppConfig where
  Id : String
  On : Bool
  Tasks : List TaskConfig
  Items : List ItemConfig
  deriving DecidableEq, Repr

/-- Agent configuration `agents.AgentConfig`. -/
structure AgentConfig where
  Id : String
  Key : String
  On : Bool
  Apps : List AppConfig
  deriving DecidableEq, Repr

/-! ## Executors and the agent state -/

/-- Modelled from the spec: the task executor `Task` (its file is not among the sources).
`uid` stands for the address of the Go object, `config` is the field `boot.go` reads and
assigns. -/
structure Task where
  uid : Nat
  appId : String
  config : TaskConfig
  deriving DecidableEq, Repr

/-- Modelled from the spec: the item executor `Item` (its file is not among the sources). -/
structure Item where
  uid : Nat
  appId : String
  config : ItemConfig
  deriving DecidableEq, Repr

/-- Calls that leave `boot.go`, in the order they are made. The two `enter…` events are
ghost markers for an invocation of `scheduleTasks` / `scheduleItems`. -/
inductive Effect where
  | enterScheduleTasks
  | enterScheduleItems
  | taskStop (uid : Nat)
  | taskSchedule (uid : Nat)
  | taskRunLog (uid : Nat)
  | generateAgain (taskId : String)
  | fileDelete (name : String)
  | itemStop (uid : Nat)
  | itemSchedule (uid : Nat)
  deriving DecidableEq, Repr

/-- State of the agent process: the package-level variables of `boot.go`, the listing of the
directory `configs/agents/`, the allocation counter and the call trace. -/
structure Agent where
  connectId : String
  connectKey : String
  connectMaster : String
  runningAgent : Option AgentConfig
  runningTasks : List (String × Task)
  runningItems : List (String × Item)
  isBooting : Bool
  agentsDir : List String
  nextUid : Nat
  trace : List Effect
  deriving DecidableEq, Repr

/-- Behaviour of library calls whose result `boot.go` inspects. -/
structure Lib where
  /-- Error result of `http.NewRequest` for a URL: `none` is the nil error. -/
  newRequest : String → Option String
  /-- Result of `yaml.Unmarshal` into a fresh `agents.AgentConfig`. -/
  yamlUnmarshal : String → Except String AgentConfig
  /-- Result of `agent.Validate()`: `none` is the nil error. -/
  validate : AgentConfig → Option String
  /-- Error result of `taskConfig.GenerateAgain()`: `none` is the nil error. -/
  generateAgain : TaskConfig → Option String
  /-- Whether `file.Delete()` succeeds on the file of that name. -/
  fileDelete : String → Bool

/-! ## Go maps as association lists -/

/-- Map read `m[k]` with the comma-ok result as an option. -/
def mapGet {α : Type} : List (String × α) → String → Option α
  | [], _ => none
  | (k', v) :: m, k => if k' = k then some v else mapGet m k

/-- Map write `m[k] = v`. -/
def mapSet {α : Type} : List (String × α) → String → α → List (String × α)
  | [], k, v => [(k, v)]
  | (k', v') :: m, k, v => if k' = k then (k, v) :: m else (k', v') :: mapSet m k v

/-- Map removal `delete(m, k)`. -/
def mapDelete {α : Type} (m : List (String × α)) (k : String) : List (String × α) :=
  m.filter (fun p => decide (p.1 ≠ k))

/-- Append a call to the trace. -/
def Agent.emit (s : Agent) (e : Effect) : Agent :=
  { s with trace := s.trace ++ [e] }

/-! ## Script files -/

/-- Modelled from the spec: the path written by `GenerateAgain`, `task.<id>.script` in
`configs/agents/` (the method itself is library code). -/
def scriptName (taskId : String) : String :=
  "task." ++ taskId ++ ".script"

/-- Create or overwrite a file in a directory listing. -/
def addFile (dir : List String) (name : String) : List String :=
  if name ∈ dir then dir else dir ++ [name]

/-- Character class `\w` of Go regular expressions: ASCII letters, digits, underscore. -/
def isWordChar (c : Char) : Bool :=
  c.isAlphanum || c == '_'

/-- Matching against `^task\.\w+\.script$` (line 414). -/
def matchTaskScript (filename : String) : Bool :=
  let cs := filename.toList
  decide (13 ≤ cs.length) && cs.take 5 == "task.".toList
    && cs.drop (cs.length - 7) == ".script".toList
    && ((cs.drop 5).take (cs.length - 12)).all isWordChar

/-- Slice `filename[len("task:") : len(filename)-len(".script")]` (line 417). It is only
evaluated on names that matched, which are ASCII, so bytes and characters coincide. -/
def scriptTaskId (filename : String) : String :=
  String.mk ((filename.toList.drop 5).take (filename.toList.length - 7 - 5))

/-! ## `scheduleTasks` (lines 347–427) -/

/-- Modelled from the spec: constructor `NewTask(appId, taskConfig)`; the new object gets
the next free identity. -/
def NewTask (uid : Nat) (appId : String) (taskConfig : TaskConfig) : Task :=
  { uid := uid, appId := appId, config := taskConfig }

/-- Lines 362–386: the running/not-running case split for one enabled task. Returns the new
state and the flag `isChanged`. -/
def reconcileTask (appId : String) (taskConfig : TaskConfig) (s : Agent) : Agent × Bool :=
  match mapGet s.runningTasks taskConfig.Id with
  | some runningTask =>
    if runningTask.config.Version ≠ taskConfig.Version then
      let s1 := s.emit (Effect.taskStop runningTask.uid)
      if taskConfig.On ∧ 0 < taskConfig.Schedule.length then
        let s2 : Agent :=
          { s1 with runningTasks :=
              mapSet s1.runningTasks taskConfig.Id { runningTask with config := taskConfig } }
        (s2.emit (Effect.taskSchedule runningTask.uid), true)
      else (s1, true)
    else (s, false)
  | none =>
    if taskConfig.On ∧ 0 < taskConfig.Schedule.length then
      let task := NewTask s.nextUid appId taskConfig
      let s1 : Agent := { s with nextUid := s.nextUid + 1 }
      let s2 := s1.emit (Effect.taskSchedule task.uid)
      ({ s2 with runningTasks := mapSet s2.runningTasks taskConfig.Id task }, true)
    else (s, true)

/-- Lines 356–394: body of the inner loop for one task. The state of the loop is the agent
state and the slice `taskIds`; the second component is the error that ends `scheduleTasks`
early, if any. -/
def scheduleTask (x : Lib) (appId : String) (taskConfig : TaskConfig)
    (st : Agent × List String) : (Agent × List String) × Option String :=
  if taskConfig.On = false then (st, none)
  else
    let taskIds := st.2 ++ [taskConfig.Id]
    let r := reconcileTask appId taskConfig st.1
    if r.2 = true then
      let s1 := r.1.emit (Effect.generateAgain taskConfig.Id)
      match x.generateAgain taskConfig with
      | some err => ((s1, taskIds), some err)
      | none =>
        (({ s1 with agentsDir := addFile s1.agentsDir (scriptName taskConfig.Id) }, taskIds),
          none)
    else ((r.1, taskIds), none)

/-- Lines 355–395: the inner loop over `app.Tasks`. -/
def scheduleAppTasks (x : Lib) (appId : String) :
    List TaskConfig → Agent × List String → (Agent × List String) × Option String
  | [], st => (st, none)
  | taskConfig :: rest, st =>
    match scheduleTask x appId taskConfig st with
    | (st1, some err) => (st1, some err)
    | (st1, none) => scheduleAppTasks x appId rest st1

/-- Lines 351–396: the outer loop over `runningAgent.Apps`. -/
def scheduleApps (x : Lib) :
    List AppConfig → Agent × List String → (Agent × List String) × Option String
  | [], st => (st, none)
  | app :: rest, st =>
    if app.On = false then scheduleApps x rest st
    else
      match scheduleAppTasks x app.Id app.Tasks st with
      | (st1, some err) => (st1, some err)
      | (st1, none) => scheduleApps x rest st1

/-- Lines 399–409: the loop over the entries of `runningTasks`; the first argument after
`taskIds` is the sequence of entries the `range` visits. Go leaves the visiting order open,
the embedding visits in list order. -/
def stopAbsentTasks (taskIds : List String) : List (String × Task) → Agent → Agent
  | [], s => s
  | (taskId, runningTask) :: rest, s =>
    if taskId ∈ taskIds then stopAbsentTasks taskIds rest s
    else
      let s1 : Agent := { s with runningTasks := mapDelete s.runningTasks taskId }
      stopAbsentTasks taskIds rest (s1.emit (Effect.taskStop runningTask.uid))

/-- Lines 412–424: the callback of `Range` over the files of `configs/agents/`. -/
def cleanScripts (x : Lib) (taskIds : List String) : List String → Agent → Agent
  | [], s => s
  | filename :: rest, s =>
    if matchTaskScript filename = false then cleanScripts x taskIds rest s
    else if scriptTaskId filename ∈ taskIds then cleanScripts x taskIds rest s
    else
      let s1 := s.emit (Effect.fileDelete filename)
      if x.fileDelete filename = true then
        cleanScripts x taskIds rest
          { s1 with agentsDir := s1.agentsDir.filter (fun f => decide (f ≠ filename)) }
      else cleanScripts x taskIds rest s1

/-- Function `scheduleTasks` (lines 347–427). `none` is the nil-pointer panic on
`runningAgent`; otherwise the new state and the returned error (`none` for `nil`). -/
def scheduleTasks (x : Lib) (s : Agent) : Option (Agent × Option String) :=
  match s.runningAgent with
  | none => none
  | some agent =>
    match scheduleApps x agent.Apps (s.emit Effect.enterScheduleTasks, []) with
    | (st, some err) => some (st.1, some err)
    | (st, none) =>
      let s1 := stopAbsentTasks st.2 st.1.runningTasks st.1
      some (cleanScripts x st.2 s1.agentsDir s1, none)

/-! ## `scheduleItems` (lines 430–469) -/

/-- Modelled from the spec: constructor `NewItem(appId, itemConfig)`. -/
def NewItem (uid : Nat) (appId : String) (itemConfig : ItemConfig) : Item :=
  { uid := uid, appId := appId, config := itemConfig }

/-- Lines 439–453: body of the inner loop for one item. The state of the loop is the agent
state and the slice `itemIds`. -/
def scheduleItem (appId : String) (itemConfig : ItemConfig)
    (st : Agent × List String) : Agent × List String :=
  if itemConfig.On = false then st
  else
    let itemIds := st.2 ++ [itemConfig.Id]
    let s1 : Agent :=
      match mapGet st.1.runningItems itemConfig.Id with
      | some runningItem => st.1.emit (Effect.itemStop runningItem.uid)
      | none => st.1
    let item := NewItem s1.nextUid appId itemConfig
    let s2 : Agent := { s1 with nextUid := s1.nextUid + 1 }
    let s3 := s2.emit (Effect.itemSchedule item.uid)
    ({ s3 with runningItems := mapSet s3.runningItems itemConfig.Id item }, itemIds)

/-- Lines 438–454: the inner loop over `app.Items`. -/
def scheduleAppItems (appId : String) :
    List ItemConfig → Agent × List String → Agent × List String
  | [], st => st
  | itemConfig :: rest, st => scheduleAppItems appId rest (scheduleItem appId itemConfig st)

/-- Lines 434–455: the outer loop over `runningAgent.Apps`. -/
def scheduleItemApps : List AppConfig → Agent × List String → Agent × List String
  | [], st => st
  | app :: rest, st =>
    if app.On = false then scheduleItemApps rest st
    else scheduleItemApps rest (scheduleAppItems app.Id app.Items st)

/-- Lines 458–466: the loop over the entries of `runningItems`, visited in list order. -/
def stopAbsentItems (itemIds : List String) : List (String × Item) → Agent → Agent
  | [], s => s
  | (itemId, item) :: rest, s =>
    if itemId ∈ itemIds then stopAbsentItems itemIds rest s
    else
      let s1 := s.emit (Effect.itemStop item.uid)
      stopAbsentItems itemIds rest { s1 with runningItems := mapDelete s1.runningItems itemId }

/-- Function `scheduleItems` (lines 430–469). `none` is the nil-pointer panic on
`runningAgent`; the returned error is always `nil`. -/
def scheduleItems (s : Agent) : Option (Agent × Option String) :=
  match s.runningAgent with
  | none => none
  | some agent =>
    let st := scheduleItemApps agent.Apps (s.emit Effect.enterScheduleItems, [])
    some (stopAbsentItems st.2 st.1.runningItems st.1, none)

/-! ## Answers of the master -/

/-- What the code finds in the body of a 200 answer. `data` is `none` when the envelope
field `data` is nil or not a map (lines 248, 538), else what the code reads from that map. -/
inductive HttpBody (α : Type) where
  | readError (err : String)
  | jsonError (err : String)
  | jsonNull
  | envelope (raw : String) (code : Int) (data : Option α)

/-- Result of `client.Do(req)` together with the body that is read afterwards. -/
inductive HttpResult (α : Type) where
  | transportError (err : String)
  | response (status : Int) (body : HttpBody α)

/-- Environment of one call of `downloadConfig`: the answer to `GET /api/agent` (the data
map is reduced to `GetString("config")`), the state of the directory `configs/agents/` and
the results of creating it and of writing the config file, and, for local mode, the
successive results of `agents.NewAgentConfigFromFile("agent.local.conf")`, one per attempt. -/
structure Fetch where
  http : HttpResult String
  agentsIsDir : Bool
  mkdir : Option String
  write : Option String
  localReads : List (Option AgentConfig)

/-! ## `downloadConfig` (lines 196–297) and `loadLocalConfig` (lines 300–319) -/

/-- Function `loadLocalConfig`. Each failed attempt sleeps 30 s and tries again; `none` means
that all the attempts given have failed and the function has not returned yet. -/
def loadLocalConfig (x : Lib) : List (Option AgentConfig) → Agent → Option (Agent × Option String)
  | [], _ => none
  | none :: rest, s => loadLocalConfig x rest s
  | some agent :: rest, s =>
    match x.validate agent with
    | some _ => loadLocalConfig x rest s
    | none =>
      let s1 : Agent := { s with runningAgent := some agent, connectKey := agent.Key }
      if s1.isBooting = false then scheduleTasks x s1 else some (s1, none)

/-- Lines 271–296: saving the fetched config, installing it and reconciling. Of the file
written only the name is kept. -/
def installConfig (x : Lib) (f : Fetch) (agent : AgentConfig) (s : Agent) :
    Option (Agent × Option String) :=
  match (if f.agentsIsDir = false then f.mkdir else none) with
  | some err => some (s, some err)
  | none =>
    match f.write with
    | some err => some (s, some err)
    | none =>
      let s1 : Agent :=
        { s with
          agentsDir := addFile s.agentsDir ("agent." ++ agent.Id ++ ".conf")
          runningAgent := some agent
          connectId := agent.Id
          connectKey := agent.Key }
      if s1.isBooting = false then
        match scheduleTasks x s1 with
        | none => none
        | some r1 =>
          match scheduleItems r1.1 with
          | none => none
          | some r2 => some (r2.1, none)
      else some (s1, none)

/-- Lines 252–268: decoding and validating the fetched config. -/
def decodeConfig (x : Lib) (f : Fetch) (config : String) (s : Agent) :
    Option (Agent × Option String) :=
  match x.yamlUnmarshal config with
  | Except.error err => some (s, some err)
  | Except.ok agent =>
    if agent.Id.length = 0 then some (s, some "invalid agent id")
    else
      match x.validate agent with
      | some err => some (s, some err)
      | none => installConfig x f agent s

/-- Function `downloadConfig` (lines 196–297). `none`: the call has not returned (local mode
still retrying) or has panicked; otherwise the new state and the returned error. The texts of
the errors are abridged. -/
def downloadConfig (x : Lib) (f : Fetch) (s : Agent) : Option (Agent × Option String) :=
  if s.connectId = "local" then
    match loadLocalConfig x f.localReads s with
    | none => none
    | some r => some (r.1, none)
  else if s.connectMaster.length = 0 then some (s, some "master should not be empty")
  else
    match x.newRequest (s.connectMaster ++ "/api/agent") with
    | some err => some (s, some err)
    | none =>
      match f.http with
      | HttpResult.transportError err => some (s, some err)
      | HttpResult.response status body =>
        if status ≠ 200 then some (s, some "invalid status response from master")
        else
          match body with
          | HttpBody.readError err => some (s, some err)
          | HttpBody.jsonError err => some (s, some err)
          | HttpBody.jsonNull => some (s, some "response data should not be nil")
          | HttpBody.envelope raw code data =>
            if code ≠ 200 then some (s, some ("invalid response from master:" ++ raw))
            else
              match data with
              | none => some (s, some "response json data should be a map")
              | some config => decodeConfig x f config s

/-! ## `pullEvents` (lines 472–596) -/

/-- One element of the slice `events` as the loop sees it: `notMap` is an element that is nil
or not a map (skipped at line 552); otherwise `GetString("name")` and, when `GetMap("data")`
is not nil, its `GetString("taskId")`. -/
inductive EventBody where
  | notMap
  | event (name : String) (taskId : Option String)

/-- An event together with the environment that a `downloadConfig` triggered by it meets. -/
structure PullEvent where
  body : EventBody
  fetch : Fetch

/-- Environment of one call of `pullEvents`: the error results of the invocations of the
`DialContext` closure made by the transport (`none` is a successful dial), and the result of
`client.Do` with the body; the data map is reduced to its field `events`, `none` when that is
nil or not a slice. -/
structure Pull where
  dials : List (Option String)
  http : HttpResult (Option (List PullEvent))

/-- Lines 489–500: one invocation of the `DialContext` closure, as a function of the
captured variable `connectingFailed` and of the error of the dial. -/
def dialContext (connectingFailed : Bool) (dialErr : Option String) : Bool :=
  match dialErr with
  | some _ => true
  | none => connectingFailed

/-- Value of `connectingFailed` when `client.Do` returns: initialised to `false` (line 485)
and passed through every invocation of the closure. -/
def connectingFailedAfter (dials : List (Option String)) : Bool :=
  dials.foldl dialContext false

/-- Names of the events that make `pullEvents` call `downloadConfig` (lines 558–591). -/
def refetchEvents : List String :=
  ["UPDATE_AGENT", "ADD_APP", "UPDATE_APP", "REMOVE_APP", "ADD_TASK", "UPDATE_TASK",
    "REMOVE_TASK", "ADD_ITEM", "UPDATE_ITEM", "DELETE_ITEM"]

/-- Search of a task in one app, part of `FindTask`. -/
def findTaskIn (app : AppConfig) (taskId : String) : List TaskConfig → Option (AppConfig × TaskConfig)
  | [] => none
  | t :: rest => if t.Id = taskId then some (app, t) else findTaskIn app taskId rest

/-- Modelled from the spec: `AgentConfig.FindTask` (library code), the first task with the
given id in the order of the apps, and its app. -/
def FindTask (taskId : String) : List AppConfig → Option (AppConfig × TaskConfig)
  | [] => none
  | app :: rest =>
    match findTaskIn app taskId app.Tasks with
    | some r => some r
    | none => FindTask taskId rest

/-- Lines 551–592: body of the loop over the events. `none` is a panic or a call that has
not returned. -/
def dispatchEvent (x : Lib) (ev : PullEvent) (s : Agent) : Option Agent :=
  match ev.body with
  | EventBody.notMap => some s
  | EventBody.event name data =>
    if name ∈ refetchEvents then
      match downloadConfig x ev.fetch s with
      | none => none
      | some r => some r.1
    else if name = "RUN_TASK" then
      match data with
      | none => some s
      | some taskId =>
        match s.runningAgent with
        | none => none
        | some agent =>
          match FindTask taskId agent.Apps with
          | none => some s
          | some r =>
            let task := NewTask s.nextUid r.1.Id r.2
            let s1 : Agent := { s with nextUid := s.nextUid + 1 }
            some (s1.emit (Effect.taskRunLog task.uid))
    else some s

/-- Lines 550–593: the loop over the events. -/
def dispatchEvents (x : Lib) : List PullEvent → Agent → Option Agent
  | [], s => some s
  | ev :: rest, s =>
    match dispatchEvent x ev s with
    | none => none
    | some s1 => dispatchEvents x rest s1

/-- Function `pullEvents` (lines 472–596). `none`: a panic or a nested call that has not
returned; otherwise the new state and the returned error. The texts of the errors are
abridged. -/
def pullEvents (x : Lib) (p : Pull) (s : Agent) : Option (Agent × Option String) :=
  if s.connectMaster.length = 0 then some (s, some "master should not be empty")
  else
    match x.newRequest (s.connectMaster ++ "/api/agent/pull") with
    | some err => some (s, some err)
    | none =>
      let connectingFailed := connectingFailedAfter p.dials
      match p.http with
      | HttpResult.transportError err =>
        if connectingFailed = true then some (s, some err) else some (s, none)
      | HttpResult.response status body =>
        if status ≠ 200 then some (s, some "invalid status response from master")
        else
          match body with
          | HttpBody.readError err => some (s, some err)
          | HttpBody.jsonError err => some (s, some err)
          | HttpBody.jsonNull => some (s, some "response data should not be nil")
          | HttpBody.envelope raw code data =>
            if code ≠ 200 then some (s, some ("invalid response from master:" ++ raw))
            else
              match data with
              | none => some (s, some "response json data should be a map")
              | some none => some (s, none)
              | some (some events) =>
                match dispatchEvents x events s with
                | none => none
                | some s1 => some (s1, none)

/-! ## `pushEvents` (lines 599–694) -/

/-- What the drain loop finds in the body of a 200 answer to a push; `code` is
`respJSON.GetInt("code")`. -/
inductive PushBody where
  | readError
  | jsonError
  | json (code : Int)
  deriving DecidableEq, Repr

/-- Outcome of one push request of the drain loop. -/
inductive PushResult where
  | requestError
  | transportError
  | response (status : Int) (body : PushBody)
  deriving DecidableEq, Repr

/-- State of the drain loop: the records of the spool in key order, and the seconds slept. -/
structure Drain where
  db : List (String × String)
  slept : Nat
  deriving DecidableEq, Repr

/-- Lines 614–659: body of the loop for the record under the iterator. `deleteOk` tells
whether `db.Delete` takes effect (its error is not looked at). -/
def pushRecord (key : String) (r : PushResult) (deleteOk : Bool) (d : Drain) : Drain :=
  match r with
  | PushResult.requestError => { d with slept := d.slept + 5 }
  | PushResult.transportError => d
  | PushResult.response status body =>
    if status ≠ 200 then d
    else
      match body with
      | PushBody.readError => d
      | PushBody.jsonError => d
      | PushBody.json code =>
        if code ≠ 200 then { d with slept := d.slept + 5 }
        else if deleteOk = true then { d with db := mapDelete d.db key }
        else d

/-- Lines 612–661: one sweep of the iterator over the records `snapshot`, then the sleep of
one second. `env` gives, for the record under a key, the outcome of its push and of its
delete. -/
def drainSweep (env : String → PushResult × Bool) (snapshot : List (String × String))
    (d : Drain) : Drain :=
  let d1 := snapshot.foldl (fun acc p => pushRecord p.1 (env p.1).1 (env p.1).2 acc) d
  { d1 with slept := d1.slept + 1 }

/-- Two-complement wrap of a 64-bit signed integer. -/
def wrapInt64 (n : Int) : Int :=
  (n + 2 ^ 63) % 2 ^ 64 - 2 ^ 63

/-- Decimal digits of a natural number, most significant first, as `%d` prints them. -/
def decimalDigits (n : Nat) : List Char :=
  if n = 0 then ['0'] else ((Nat.digits 10 n).map Nat.digitChar).reverse

/-- Rendering `fmt.Sprintf("%d", logId)`. -/
def sprintfD (n : Int) : String :=
  if n < 0 then String.mk ('-' :: decimalDigits n.natAbs) else String.mk (decimalDigits n.natAbs)

/-- State of the ingest loop: the counter `logId` and the calls of `db.Put` made so far,
each with the counter value whose rendering is the key, and the value written. -/
structure Ingest where
  logId : Int
  puts : List (Int × String)
  deriving DecidableEq, Repr

/-- Lines 668–692: body of the ingest loop for one event taken from `eventQueue`; `json` is
the result of `event.AsJSON()`, `dbOpen` tells whether `db` is not nil. -/
def ingestEvent (dbOpen : Bool) (json : Except String String) (g : Ingest) : Ingest :=
  match json with
  | Except.error _ => g
  | Except.ok jsonData =>
    if dbOpen = true then
      let logId := wrapInt64 (g.logId + 1)
      { logId := logId, puts := g.puts ++ [(logId, jsonData)] }
    else g

/-- Lines 666–693: the ingest loop of a process that starts at Unix time `now`, over the
events it takes from the queue. -/
def ingest (dbOpen : Bool) (now : Int) (events : List (Except String String)) : Ingest :=
  events.foldl (fun g json => ingestEvent dbOpen json g) { logId := now, puts := [] }

/-- Keys passed to `db.Put` by a run of the ingest loop. -/
def putKeys (g : Ingest) : List String :=
  g.puts.map (fun p => sprintfD p.1)

/-! ## Sets and invariants used in the statements -/

/-- Invariant of the ingest loop of a process started at `now`. -/
def IngestInv (now : Int) (g : Ingest) : Prop :=
  List.Pairwise (fun a b => a < b) (g.puts.map Prod.fst) ∧
    (∀ k ∈ g.puts.map Prod.fst, now < k ∧ k ≤ g.logId) ∧
    g.logId = now + g.puts.length

/-- The tasks that `scheduleTasks` goes through: tasks with `on` under apps with `on`, each
with the id of its app, in the order of the two loops. -/
def enabledTasks : List AppConfig → List (String × TaskConfig)
  | [] => []
  | app :: rest =>
    if app.On = false then enabledTasks rest
    else (app.Tasks.filter (fun t => t.On)).map (fun t => (app.Id, t)) ++ enabledTasks rest

/-- Ids of the enabled tasks of enabled apps. -/
def enabledTaskIds (apps : List AppConfig) : List String :=
  (enabledTasks apps).map (fun p => p.2.Id)

/-- The desired set in the words of the spec (section 4.5, step 1): ids of the tasks with
`app.on`, `task.on` and a non-empty schedule. -/
def desiredTaskIds (apps : List AppConfig) : List String :=
  ((enabledTasks apps).filter (fun p => decide (0 < p.2.Schedule.length))).map (fun p => p.2.Id)

/-- The two nested loops of `scheduleTasks` as one loop over `enabledTasks`. -/
def runTasks (x : Lib) :
    List (String × TaskConfig) → Agent × List String → (Agent × List String) × Option String
  | [], st => (st, none)
  | p :: rest, st =>
    match scheduleTask x p.1 p.2 st with
    | (st1, some err) => (st1, some err)
    | (st1, none) => runTasks x rest st1

/-- Executors held in `runningTasks` are distinct objects, all allocated before `nextUid`. -/
def TasksWF (s : Agent) : Prop :=
  (s.runningTasks.map (fun p => p.2.uid)).Nodup ∧ ∀ p ∈ s.runningTasks, p.2.uid < s.nextUid

/-- The package-level variables other than the two running maps are the same in both
states. -/
def SameGlobals (s s1 : Agent) : Prop :=
  s1.connectId = s.connectId ∧ s1.connectKey = s.connectKey ∧
    s1.connectMaster = s.connectMaster ∧ s1.runningAgent = s.runningAgent ∧
    s1.isBooting = s.isBooting

/-- The items that `scheduleItems` goes through: items with `on` under apps with `on`, each
with the id of its app, in the order of the two loops. -/
def enabledItems : List AppConfig → List (String × ItemConfig)
  | [] => []
  | app :: rest =>
    if app.On = false then enabledItems rest
    else (app.Items.filter (fun i => i.On)).map (fun i => (app.Id, i)) ++ enabledItems rest

/-- Ids of the enabled items of enabled apps. -/
def enabledItemIds (apps : List AppConfig) : List String :=
  (enabledItems apps).map (fun p => p.2.Id)

/-- The set in the words of the spec (section 4.5): ids of every item listed under an app
with `on`, whatever the `on` of the item. -/
def listedItemIds : List AppConfig → List String
  | [] => []
  | app :: rest =>
    if app.On = false then listedItemIds rest
    else app.Items.map (fun i => i.Id) ++ listedItemIds rest

/-- The two nested loops of `scheduleItems` as one loop over `enabledItems`. -/
def runItems : List (String × ItemConfig) → Agent × List String → Agent × List String
  | [], st => st
  | p :: rest, st => runItems rest (scheduleItem p.1 p.2 st)

/-! ## Concrete inputs -/

/-- A library in which every call succeeds; YAML decoding yields an agent named after the
text. -/
def libOk : Lib :=
  { newRequest := fun _ => none
    yamlUnmarshal := fun c => Except.ok { Id := c, Key := "key", On := true, Apps := [] }
    validate := fun _ => none
    generateAgain := fun _ => none
    fileDelete := fun _ => true }

/-- A spool holding two records. -/
def spoolTwo : Drain :=
  { db := [("1700000001", "start"), ("1700000002", "stop")], slept := 0 }

/-- An agent in remote mode, after boot, with nothing running. -/
def agentRemote : Agent :=
  { connectId := "a1"
    connectKey := "key"
    connectMaster := "http://master"
    runningAgent := some { Id := "a1", Key := "key", On := true, Apps := [] }
    runningTasks := []
    runningItems := []
    isBooting := false
    agentsDir := []
    nextUid := 0
    trace := [] }

/-- A long poll that connects and then runs into the 60 s ceiling. -/
def pullIdle : Pull :=
  { dials := [none], http := HttpResult.transportError "timeout" }

/-- Three events that serialise. -/
def eventsThree : List (Except String String) :=
  [Except.ok "start", Except.ok "out", Except.ok "stop"]

/-- Task `T1` at version 1 with a schedule. -/
def taskT1v1 : TaskConfig :=
  { Id := "T1", Name := "backup", On := true, Version := 1, Schedule := "0 * * * *",
    IsBooting := false }

/-- Task `T1` at version 2 with a schedule. -/
def taskT1v2 : TaskConfig :=
  { Id := "T1", Name := "backup", On := true, Version := 2, Schedule := "0 * * * *",
    IsBooting := false }

/-- Task `T1` at version 2, enabled, without a schedule. -/
def taskT1v2Unscheduled : TaskConfig :=
  { Id := "T1", Name := "backup", On := true, Version := 2, Schedule := "",
    IsBooting := false }

/-- Task `T2` at version 1 with a schedule. -/
def taskT2 : TaskConfig :=
  { Id := "T2", Name := "rotate", On := true, Version := 1, Schedule := "5 * * * *",
    IsBooting := false }

/-- An agent config with one enabled app holding the given tasks and items. -/
def configOf (tasks : List TaskConfig) (items : List ItemConfig) : AgentConfig :=
  { Id := "a1", Key := "key", On := true,
    Apps := [{ Id := "app1", On := true, Tasks := tasks, Items := items }] }

/-- The executor of `T1` at version 1, the first object allocated. -/
def execT1 : Task :=
  { uid := 0, appId := "app1", config := taskT1v1 }

/-- An agent after boot in which `T1` runs at version 1; `files` are the names in
`configs/agents/` and `config` is the config just installed. -/
def agentWithFiles (files : List String) (config : AgentConfig) : Agent :=
  { connectId := "a1"
    connectKey := "key"
    connectMaster := "http://master"
    runningAgent := some config
    runningTasks := [("T1", execT1)]
    runningItems := []
    isBooting := false
    agentsDir := files
    nextUid := 1
    trace := [] }

/-- The same agent with the config file and the script of `T1` on disk. -/
def agentRunningT1 (config : AgentConfig) : Agent :=
  agentWithFiles ["agent.a1.conf", "task.T1.script"] config

/-- A library in which `GenerateAgain` fails for task `T2` and everything else succeeds. -/
def libGenerateFails : Lib :=
  { libOk with generateAgain := fun t => if t.Id = "T2" then some "disk full" else none }

/-- A library in which `file.Delete` fails and everything else succeeds. -/
def libDeleteFails : Lib :=
  { libOk with fileDelete := fun _ => false }

/-- Task `T1` still at version 1, enabled, without a schedule. -/
def taskT1v1Unscheduled : TaskConfig :=
  { Id := "T1", Name := "backup", On := true, Version := 1, Schedule := "",
    IsBooting := false }

/-- Item `I1`, enabled. -/
def itemI1 : ItemConfig :=
  { Id := "I1", Name := "cpu", On := true }

/-- Item `I2`, listed with `on` false. -/
def itemI2Off : ItemConfig :=
  { Id := "I2", Name := "disk", On := false }

/-- An agent after boot in which the items `I1` and `I2` run; `config` is the config just
installed. -/
def agentRunningItems (config : AgentConfig) : Agent :=
  { connectId := "a1"
    connectKey := "key"
    connectMaster := "http://master"
    runningAgent := some config
    runningTasks := []
    runningItems :=
      [("I1", { uid := 0, appId := "app1", config := itemI1 }),
        ("I2", { uid := 1, appId := "app1", config := { itemI2Off with On := true } })]
    isBooting := false
    agentsDir := []
    nextUid := 2
    trace := [] }

/-- An answer of the master to `GET /api/agent` with HTTP status 200 and the given envelope
code, the data map carrying the given config text; the directory exists and the write
succeeds. -/
def fetchAnswer (code : Int) (config : String) : Fetch :=
  { http := HttpResult.response 200 (HttpBody.envelope "body" code (some config))
    agentsIsDir := true
    mkdir := none
    write := none
    localReads := [] }

/-- A library whose `Validate` rejects every config. -/
def libInvalid : Lib :=
  { libOk with validate := fun _ => some "invalid config" }

/-! # Theorems -/

/-! ## Maps -/

theorem mapGet_mapDelete_self {α : Type} (m : List (String × α)) (k : String) :
    mapGet (mapDelete m k) k = none := by
  induction m with
  | nil => rfl
  | cons p m ih =>
    obtain ⟨k', v⟩ := p
    by_cases h : k' = k
    · simpa [mapDelete, h] using ih
    · simpa [mapDelete, h, mapGet] using ih

theorem mapGet_mapDelete_ne {α : Type} (m : List (String × α)) (k k' : String) (h : k' ≠ k) :
    mapGet (mapDelete m k) k' = mapGet m k' := by
  induction m with
  | nil => rfl
  | cons p m ih =>
    obtain ⟨k1, v⟩ := p
    by_cases h1 : k1 = k
    · subst h1
      have h2 : k1 ≠ k' := fun e => h e.symm
      simpa [mapDelete, mapGet, h2] using ih
    · by_cases h2 : k1 = k'
      · subst h2
        simp [mapDelete, h1, mapGet]
      · simpa [mapDelete, h1, mapGet, h2] using ih

theorem mapGet_mapSet_self {α : Type} (m : List (String × α)) (k : String) (v : α) :
    mapGet (mapSet m k v) k = some v := by
  induction m with
  | nil => simp [mapSet, mapGet]
  | cons p m ih =>
    obtain ⟨k1, v1⟩ := p
    by_cases h1 : k1 = k
    · simp [mapSet, h1, mapGet]
    · simpa [mapSet, h1, mapGet] using ih

theorem mapGet_mapSet_ne {α : Type} (m : List (String × α)) (k k' : String) (v : α)
    (h : k' ≠ k) : mapGet (mapSet m k v) k' = mapGet m k' := by
  induction m with
  | nil => simp [mapSet, mapGet, Ne.symm h]
  | cons p m ih =>
    obtain ⟨k1, v1⟩ := p
    by_cases h1 : k1 = k
    · subst h1
      have h2 : k1 ≠ k' := fun e => h e.symm
      simp [mapSet, mapGet, h2]
    · by_cases h2 : k1 = k'
      · subst h2
        simp [mapSet, h1, mapGet]
      · simpa [mapSet, h1, mapGet, h2] using ih

theorem mem_of_mapGet {α : Type} (m : List (String × α)) (k : String) (v : α)
    (h : mapGet m k = some v) : (k, v) ∈ m := by
  induction m with
  | nil => simp [mapGet] at h
  | cons p m ih =>
    obtain ⟨k1, v1⟩ := p
    by_cases h1 : k1 = k
    · simp [mapGet, h1] at h
      simp [h1, h]
    · simp [mapGet, h1] at h
      exact List.mem_cons_of_mem _ (ih h)

theorem mapGet_isSome_of_mem {α : Type} (m : List (String × α)) (k : String) (v : α)
    (h : (k, v) ∈ m) : ∃ w, mapGet m k = some w := by
  induction m with
  | nil => simp at h
  | cons p m ih =>
    obtain ⟨k1, v1⟩ := p
    by_cases h1 : k1 = k
    · exact ⟨v1, by simp [mapGet, h1]⟩
    · have : (k, v) ∈ m := by
        rcases List.mem_cons.mp h with e | e
        · exact absurd (congrArg Prod.fst e).symm h1
        · exact e
      obtain ⟨w, hw⟩ := ih this
      exact ⟨w, by simpa [mapGet, h1] using hw⟩


/-! ## Drain loop of `pushEvents` -/

theorem mem_mapDelete {α : Type} (m : List (String × α)) (k : String) (p : String × α) :
    p ∈ mapDelete m k ↔ p ∈ m ∧ p.1 ≠ k := by
  simp [mapDelete]

theorem pushRecord_db (key : String) (r : PushResult) (deleteOk : Bool) (d : Drain) :
    (pushRecord key r deleteOk d).db = d.db ∨
      (r = PushResult.response 200 (PushBody.json 200) ∧ deleteOk = true ∧
        (pushRecord key r deleteOk d).db = mapDelete d.db key) := by
  unfold pushRecord
  cases r with
  | requestError => simp
  | transportError => simp
  | response status body =>
    by_cases hs : status = 200
    · subst hs
      cases body with
      | readError => simp
      | jsonError => simp
      | json code =>
        by_cases hc : code = 200
        · subst hc
          cases deleteOk <;> simp
        · simp [hc]
    · simp [hs]

theorem pushRecord_keeps (key : String) (r : PushResult) (deleteOk : Bool) (d : Drain)
    (p : String × String) (hp : p ∈ d.db) (hgone : p ∉ (pushRecord key r deleteOk d).db) :
    p.1 = key ∧ r = PushResult.response 200 (PushBody.json 200) := by
  rcases pushRecord_db key r deleteOk d with h | ⟨hr, _, h⟩
  · rw [h] at hgone
    exact absurd hp hgone
  · rw [h, mem_mapDelete] at hgone
    refine ⟨?_, hr⟩
    by_contra hne
    exact hgone ⟨hp, hne⟩

theorem foldl_pushRecord_keeps (env : String → PushResult × Bool)
    (snapshot : List (String × String)) (d : Drain) (p : String × String) (hp : p ∈ d.db)
    (hgone : p ∉ (snapshot.foldl
      (fun acc q => pushRecord q.1 (env q.1).1 (env q.1).2 acc) d).db) :
    (env p.1).1 = PushResult.response 200 (PushBody.json 200) := by
  induction snapshot generalizing d with
  | nil => exact absurd hp hgone
  | cons q rest ih =>
    simp only [List.foldl_cons] at hgone
    by_cases hq : p ∈ (pushRecord q.1 (env q.1).1 (env q.1).2 d).db
    · exact ih _ hq hgone
    · obtain ⟨h1, h2⟩ := pushRecord_keeps _ _ _ _ p hp hq
      rw [h1]
      exact h2

/-- C1 (at-least-once delivery). For a record held in the spool and any outcome of its push
request: the drain step removes the key only if the request got through, the status was 200,
the body parsed and the envelope code was 200; with any other outcome the spool is left as it
was, so the record is still there; a fully successful push whose delete takes effect does
remove the key. The same holds over a whole sweep: a record that is missing after the sweep
had a fully successful push. -/
theorem pushEvents_at_least_once (key value : String) (r : PushResult) (deleteOk : Bool)
    (d : Drain) (h : mapGet d.db key = some value) :
    (mapGet (pushRecord key r deleteOk d).db key = none →
        r = PushResult.response 200 (PushBody.json 200)) ∧
      (r ≠ PushResult.response 200 (PushBody.json 200) →
        (pushRecord key r deleteOk d).db = d.db ∧
          mapGet (pushRecord key r deleteOk d).db key = some value) ∧
      (r = PushResult.response 200 (PushBody.json 200) → deleteOk = true →
        mapGet (pushRecord key r deleteOk d).db key = none) ∧
      (∀ (env : String → PushResult × Bool) (snapshot : List (String × String)),
        (key, value) ∉ (drainSweep env snapshot d).db →
          (env key).1 = PushResult.response 200 (PushBody.json 200)) := by
  refine ⟨?_, ?_, ?_, ?_⟩
  · intro hnone
    rcases pushRecord_db key r deleteOk d with h1 | ⟨hr, _, _⟩
    · rw [h1, h] at hnone
      exact absurd hnone (by simp)
    · exact hr
  · intro hne
    rcases pushRecord_db key r deleteOk d with h1 | ⟨hr, _, _⟩
    · exact ⟨h1, by rw [h1]; exact h⟩
    · exact absurd hr hne
  · intro hr hd
    rcases pushRecord_db key r deleteOk d with h1 | ⟨_, _, h2⟩
    · subst hr
      subst hd
      simp [pushRecord, mapGet_mapDelete_self]
    · rw [h2]
      exact mapGet_mapDelete_self _ _
  · intro env snapshot hgone
    have hp : (key, value) ∈ d.db := mem_of_mapGet _ _ _ h
    exact foldl_pushRecord_keeps env snapshot d (key, value) hp (by simpa [drainSweep] using hgone)

/-- Witness of `pushEvents_at_least_once`: a spool with two records, the master answering
the push of the first with status 500. -/
theorem pushEvents_at_least_once_witness :
    (mapGet (pushRecord "1700000001" (PushResult.response 500 PushBody.readError) true
        spoolTwo).db "1700000001" = none →
        PushResult.response 500 PushBody.readError
          = PushResult.response 200 (PushBody.json 200)) ∧
      (pushRecord "1700000001" (PushResult.response 500 PushBody.readError) true spoolTwo).db
        = spoolTwo.db :=
  have h := pushEvents_at_least_once "1700000001" "start" (PushResult.response 500 PushBody.readError)
    true spoolTwo (by decide)
  ⟨h.1, (h.2.1 (by decide)).1⟩

/-! ## Long poll of `pullEvents` -/

theorem foldl_dialContext (dials : List (Option String)) (b : Bool) :
    dials.foldl dialContext b = true ↔ b = true ∨ ∃ e, some e ∈ dials := by
  induction dials generalizing b with
  | nil => simp
  | cons d rest ih =>
    rw [List.foldl_cons, ih]
    cases d with
    | none =>
      simp [dialContext]
    | some e =>
      simp only [dialContext, true_or, true_iff]
      exact Or.inr ⟨e, List.mem_cons_self _ _⟩

/-- C10 (long-poll idle timeout is not an error). When the request could be built and
`client.Do` returns an error: with `connectingFailed` false, `pullEvents` returns nil and
leaves the whole state as it was (no refetch, no task run, nothing in the trace); with the
flag true it returns that error, again without touching the state; and the flag is true
exactly when some invocation of the dial closure ended with an error. -/
theorem pullEvents_client_error (x : Lib) (p : Pull) (s : Agent) (err : String)
    (hm : s.connectMaster.length ≠ 0)
    (hr : x.newRequest (s.connectMaster ++ "/api/agent/pull") = none)
    (he : p.http = HttpResult.transportError err) :
    (connectingFailedAfter p.dials = false → pullEvents x p s = some (s, none)) ∧
      (connectingFailedAfter p.dials = true → pullEvents x p s = some (s, some err)) ∧
      (connectingFailedAfter p.dials = true ↔ ∃ e, some e ∈ p.dials) := by
  refine ⟨?_, ?_, ?_⟩
  · intro hf
    simp [pullEvents, hm, hr, he, hf]
  · intro hf
    simp [pullEvents, hm, hr, he, hf]
  · simpa [connectingFailedAfter] using foldl_dialContext p.dials false

/-- Witness of `pullEvents_client_error`: the 60 s ceiling is hit after a successful dial. -/
theorem pullEvents_client_error_witness :
    pullEvents libOk pullIdle agentRemote = some (agentRemote, none) :=
  (pullEvents_client_error libOk pullIdle agentRemote "timeout" (by decide) (by rfl) (by rfl)).1
    (by decide)

/-! ## Decimal rendering of the keys -/

theorem digitChar_toNat (d : Fin 10) : (Nat.digitChar d.val).toNat - 48 = d.val := by
  revert d
  decide

theorem digitChar_ne_minus (d : Fin 10) : Nat.digitChar d.val ≠ '-' := by
  revert d
  decide

theorem map_digitChar_injective (l1 l2 : List Nat) (h1 : ∀ d ∈ l1, d < 10)
    (h2 : ∀ d ∈ l2, d < 10) (h : l1.map Nat.digitChar = l2.map Nat.digitChar) : l1 = l2 := by
  have key : ∀ l : List Nat, (∀ d ∈ l, d < 10) →
      (l.map Nat.digitChar).map (fun c => c.toNat - 48) = l := by
    intro l hl
    rw [List.map_map]
    conv_rhs => rw [← List.map_id l]
    apply List.map_congr_left
    intro d hd
    exact digitChar_toNat ⟨d, hl d hd⟩
  rw [← key l1 h1, ← key l2 h2, h]

theorem decimalDigits_injective (a b : Nat) (h : decimalDigits a = decimalDigits b) : a = b := by
  have hlt : ∀ n : Nat, ∀ d ∈ Nat.digits 10 n, d < 10 :=
    fun n d hd => Nat.digits_lt_base (by norm_num) hd
  have hzero : ∀ n : Nat, n ≠ 0 →
      ['0'] = ((Nat.digits 10 n).map Nat.digitChar).reverse → False := by
    intro n hn hz
    have h1 : (Nat.digits 10 n).map Nat.digitChar = [0].map Nat.digitChar := by
      have := congrArg List.reverse hz
      simpa using this.symm
    have h2 := map_digitChar_injective _ _ (hlt n) (by simp) h1
    have h3 := Nat.ofDigits_digits 10 n
    rw [h2] at h3
    simp at h3
    exact hn h3.symm
  unfold decimalDigits at h
  by_cases ha : a = 0
  · by_cases hb : b = 0
    · rw [ha, hb]
    · rw [if_pos ha, if_neg hb] at h
      exact absurd h (fun h => hzero b hb h)
  · by_cases hb : b = 0
    · rw [if_neg ha, if_pos hb] at h
      exact absurd h.symm (fun h => hzero a ha h)
    · rw [if_neg ha, if_neg hb] at h
      have h1 := List.reverse_injective h
      have h2 := map_digitChar_injective _ _ (hlt a) (hlt b) h1
      rw [← Nat.ofDigits_digits 10 a, ← Nat.ofDigits_digits 10 b, h2]

theorem minus_not_mem_decimalDigits (n : Nat) : '-' ∉ decimalDigits n := by
  unfold decimalDigits
  by_cases hn : n = 0
  · rw [if_pos hn]
    decide
  · rw [if_neg hn]
    intro hmem
    rw [List.mem_reverse, List.mem_map] at hmem
    obtain ⟨d, hd, hc⟩ := hmem
    exact digitChar_ne_minus ⟨d, Nat.digits_lt_base (by norm_num) hd⟩ hc

theorem decimalDigits_ne_nil (n : Nat) : decimalDigits n ≠ [] := by
  unfold decimalDigits
  by_cases hn : n = 0
  · rw [if_pos hn]
    simp
  · rw [if_neg hn]
    simp [Nat.digits_ne_nil_iff_ne_zero, hn]

/-- The rendering `%d` is injective: distinct counter values give distinct keys. -/
theorem sprintfD_injective (a b : Int) (h : sprintfD a = sprintfD b) : a = b := by
  unfold sprintfD at h
  have hhead : ∀ n m : Nat, '-' :: decimalDigits n = decimalDigits m → False := by
    intro n m hnm
    have : '-' ∈ decimalDigits m := by
      rw [← hnm]
      exact List.mem_cons_self _ _
    exact minus_not_mem_decimalDigits m this
  by_cases ha : a < 0
  · by_cases hb : b < 0
    · rw [if_pos ha, if_pos hb] at h
      have h1 := congrArg String.data h
      have h2 := decimalDigits_injective _ _ (List.cons.inj h1).2
      omega
    · rw [if_pos ha, if_neg hb] at h
      exact absurd (congrArg String.data h) (fun h1 => hhead _ _ h1)
  · by_cases hb : b < 0
    · rw [if_neg ha, if_pos hb] at h
      exact absurd (congrArg String.data h).symm (fun h1 => hhead _ _ h1)
    · rw [if_neg ha, if_neg hb] at h
      have h2 := decimalDigits_injective _ _ (congrArg String.data h)
      omega

/-! ## Ingest loop of `pushEvents` -/

theorem wrapInt64_of_range (n : Int) (hlo : -2 ^ 63 ≤ n) (hhi : n < 2 ^ 63) :
    wrapInt64 n = n := by
  unfold wrapInt64
  norm_num at hlo hhi ⊢
  omega

theorem ingestEvent_put (v : String) (g : Ingest) (hlo : -2 ^ 63 ≤ g.logId + 1)
    (hhi : g.logId + 1 < 2 ^ 63) :
    ingestEvent true (Except.ok v) g
      = { logId := g.logId + 1, puts := g.puts ++ [(g.logId + 1, v)] } := by
  simp [ingestEvent, wrapInt64_of_range _ hlo hhi]

theorem ingestEvent_inv (dbOpen : Bool) (json : Except String String) (now : Int) (g : Ingest)
    (hlo : -2 ^ 63 ≤ now) (hhi : g.logId + 1 < 2 ^ 63) (hinv : IngestInv now g) :
    IngestInv now (ingestEvent dbOpen json g) ∧
      (ingestEvent dbOpen json g).logId ≤ g.logId + 1 := by
  obtain ⟨hp, hk, hl⟩ := hinv
  have hlen : (0 : Int) ≤ g.puts.length := Int.ofNat_nonneg _
  cases json with
  | error e => exact ⟨⟨hp, hk, hl⟩, by simp [ingestEvent]⟩
  | ok v =>
    cases dbOpen with
    | false => exact ⟨⟨hp, hk, hl⟩, by simp [ingestEvent]⟩
    | true =>
      have hge : -2 ^ 63 ≤ g.logId + 1 := by omega
      rw [ingestEvent_put v g hge hhi]
      refine ⟨⟨?_, ?_, ?_⟩, le_refl _⟩
      · show List.Pairwise (fun a b => a < b) ((g.puts ++ [(g.logId + 1, v)]).map Prod.fst)
        rw [List.map_append, List.pairwise_append]
        refine ⟨hp, by simp, ?_⟩
        intro a ha b hb
        simp only [List.map_cons, List.map_nil, List.mem_singleton] at hb
        have := (hk a ha).2
        omega
      · intro k hmem
        have hmem1 : k ∈ (g.puts ++ [(g.logId + 1, v)]).map Prod.fst := hmem
        show now < k ∧ k ≤ g.logId + 1
        rw [List.map_append, List.mem_append] at hmem1
        rcases hmem1 with h1 | h1
        · have := hk k h1
          omega
        · simp only [List.map_cons, List.map_nil, List.mem_singleton] at h1
          omega
      · show g.logId + 1 = now + ((g.puts ++ [(g.logId + 1, v)]).length : Int)
        simp only [List.length_append, List.length_singleton]
        push_cast
        omega

theorem foldl_ingestEvent_inv (dbOpen : Bool) (now : Int) (events : List (Except String String))
    (g : Ingest) (hlo : -2 ^ 63 ≤ now) (hhi : g.logId + events.length < 2 ^ 63)
    (hinv : IngestInv now g) :
    IngestInv now (events.foldl (fun g json => ingestEvent dbOpen json g) g) := by
  induction events generalizing g with
  | nil => exact hinv
  | cons json rest ih =>
    simp only [List.length_cons] at hhi
    push_cast at hhi
    have hrest : (0 : Int) ≤ rest.length := Int.ofNat_nonneg _
    obtain ⟨h1, h2⟩ := ingestEvent_inv dbOpen json now g hlo (by omega) hinv
    have h3 : (ingestEvent dbOpen json g).logId + rest.length < 2 ^ 63 := by omega
    exact ih _ h3 h1

theorem ingest_inv (dbOpen : Bool) (now : Int) (events : List (Except String String))
    (hlo : -2 ^ 63 ≤ now) (hhi : now + events.length < 2 ^ 63) :
    IngestInv now (ingest dbOpen now events) :=
  foldl_ingestEvent_inv dbOpen now events _ hlo hhi ⟨by simp, by simp, by simp⟩

/-- Counterexample to C9 as stated: a process started at second 1700000000 writes three
keys; a restart one second later (clock non-decreasing) writes as its first key 1700000002,
which the previous process had already written, and which is below its last key. -/
theorem spool_keys_restart_counterexample :
    (1700000000 : Int) ≤ 1700000001 ∧
      (ingest true 1700000000 eventsThree).puts.map Prod.fst
        = [1700000001, 1700000002, 1700000003] ∧
      (ingest true 1700000001 [Except.ok "start"]).puts.map Prod.fst = [1700000002] ∧
      ¬ ((1700000003 : Int) < 1700000002) := by
  decide

/-- C9, amended. While the 64-bit counter does not overflow, the counter values whose decimal
renderings are the keys written by one process are strictly increasing and all above the
start time of the process, and the keys themselves are pairwise distinct. After a restart
under a non-decreasing clock every key of the new process is above every key of the previous
one provided the previous process wrote no more keys than seconds passed between the two
starts. -/
theorem spool_keys_monotonic (dbOpen dbOpen1 : Bool) (t0 t1 : Int)
    (ev0 ev1 : List (Except String String))
    (hlo : -2 ^ 63 ≤ t0) (hclock : t0 ≤ t1)
    (hb0 : t0 + ev0.length < 2 ^ 63) (hb1 : t1 + ev1.length < 2 ^ 63) :
    List.Pairwise (fun a b => a < b) ((ingest dbOpen t0 ev0).puts.map Prod.fst) ∧
      (∀ k ∈ (ingest dbOpen t0 ev0).puts.map Prod.fst, t0 < k) ∧
      (putKeys (ingest dbOpen t0 ev0)).Nodup ∧
      (((ingest dbOpen t0 ev0).puts.length : Int) ≤ t1 - t0 →
        ∀ k ∈ (ingest dbOpen t0 ev0).puts.map Prod.fst,
          ∀ k1 ∈ (ingest dbOpen1 t1 ev1).puts.map Prod.fst, k < k1) := by
  obtain ⟨hp0, hk0, hl0⟩ := ingest_inv dbOpen t0 ev0 hlo hb0
  obtain ⟨_, hk1, _⟩ := ingest_inv dbOpen1 t1 ev1 (le_trans hlo hclock) hb1
  refine ⟨hp0, fun k hk => (hk0 k hk).1, ?_, ?_⟩
  · have hnd : ((ingest dbOpen t0 ev0).puts.map Prod.fst).Nodup :=
      List.Pairwise.imp (fun h => ne_of_lt h) hp0
    have hkeys : putKeys (ingest dbOpen t0 ev0)
        = ((ingest dbOpen t0 ev0).puts.map Prod.fst).map sprintfD := by
      simp [putKeys]
    rw [hkeys]
    exact List.Nodup.map (fun a b h => sprintfD_injective a b h) hnd
  intro hn k hk k1 hk1m
  have h1 := (hk0 k hk).2
  have h2 := (hk1 k1 hk1m).1
  omega

/-- Witness of `spool_keys_monotonic`: three keys, then a restart five seconds later. -/
theorem spool_keys_monotonic_witness :
    (1700000000 : Int) ≤ 1700000005 ∧
      List.Pairwise (fun a b => a < b)
        ((ingest true 1700000000 eventsThree).puts.map Prod.fst) ∧
      (∀ k ∈ (ingest true 1700000000 eventsThree).puts.map Prod.fst,
        ∀ k1 ∈ (ingest true 1700000005 eventsThree).puts.map Prod.fst, k < k1) :=
  have h := spool_keys_monotonic true true 1700000000 1700000005 eventsThree eventsThree
    (by decide) (by decide) (by decide) (by decide)
  ⟨by decide, h.1, h.2.2.2 (by decide)⟩

/-! ## First loop of `scheduleTasks` -/

theorem enabledTasks_on (apps : List AppConfig) :
    ∀ p ∈ enabledTasks apps, p.2.On = true := by
  induction apps with
  | nil => simp [enabledTasks]
  | cons app rest ih =>
    intro p hp
    unfold enabledTasks at hp
    by_cases h : app.On = false
    · rw [if_pos h] at hp
      exact ih p hp
    · rw [if_neg h, List.mem_append] at hp
      rcases hp with h1 | h1
      · simp only [List.mem_map, List.mem_filter] at h1
        obtain ⟨t, ⟨_, ht⟩, rfl⟩ := h1
        exact ht
      · exact ih p h1

theorem runTasks_append (x : Lib) (l1 l2 : List (String × TaskConfig))
    (st : Agent × List String) :
    runTasks x (l1 ++ l2) st =
      match runTasks x l1 st with
      | (st1, some err) => (st1, some err)
      | (st1, none) => runTasks x l2 st1 := by
  induction l1 generalizing st with
  | nil => simp [runTasks]
  | cons p rest ih =>
    simp only [List.cons_append, runTasks]
    rcases h : scheduleTask x p.1 p.2 st with ⟨st1, _ | err⟩
    · simp only []
      exact ih st1
    · simp only []

theorem scheduleTask_off (x : Lib) (a : String) (t : TaskConfig) (st : Agent × List String)
    (h : t.On = false) : scheduleTask x a t st = (st, none) := by
  simp [scheduleTask, h]

theorem scheduleAppTasks_eq (x : Lib) (a : String) (ts : List TaskConfig)
    (st : Agent × List String) :
    scheduleAppTasks x a ts st
      = runTasks x ((ts.filter (fun t => t.On)).map (fun t => (a, t))) st := by
  induction ts generalizing st with
  | nil => simp [scheduleAppTasks, runTasks]
  | cons t rest ih =>
    by_cases h : t.On = true
    · simp only [scheduleAppTasks, List.filter_cons, h, if_true, List.map_cons, runTasks]
      rcases h1 : scheduleTask x a t st with ⟨st1, _ | err⟩
      · simp only []
        exact ih st1
      · simp only []
    · have h0 : t.On = false := by simpa using h
      simp only [scheduleAppTasks, scheduleTask_off x a t st h0, List.filter_cons, h0]
      simpa using ih st

theorem scheduleApps_eq (x : Lib) (apps : List AppConfig) (st : Agent × List String) :
    scheduleApps x apps st = runTasks x (enabledTasks apps) st := by
  induction apps generalizing st with
  | nil => simp [scheduleApps, enabledTasks, runTasks]
  | cons app rest ih =>
    by_cases h : app.On = false
    · simp only [scheduleApps, enabledTasks, if_pos h]
      exact ih st
    · simp only [scheduleApps, enabledTasks, if_neg h, runTasks_append, scheduleAppTasks_eq]
      rcases h1 : runTasks x ((app.Tasks.filter (fun t => t.On)).map (fun t => (app.Id, t))) st
        with ⟨st1, _ | err⟩
      · simp only [h1]
        exact ih st1
      · simp only [h1]

theorem scheduleTask_cases (x : Lib) (a : String) (t : TaskConfig) (st : Agent × List String)
    (hon : t.On = true) :
    (scheduleTask x a t st).1.2 = st.2 ++ [t.Id] ∧
    SameGlobals st.1 (scheduleTask x a t st).1.1 ∧
    (scheduleTask x a t st).1.1.runningItems = st.1.runningItems ∧
    ((∃ rt, mapGet st.1.runningTasks t.Id = some rt ∧ rt.config.Version = t.Version ∧
        scheduleTask x a t st = ((st.1, st.2 ++ [t.Id]), none)) ∨
      (∃ rt, mapGet st.1.runningTasks t.Id = some rt ∧ rt.config.Version ≠ t.Version ∧
        0 < t.Schedule.length ∧
        (scheduleTask x a t st).1.1.runningTasks
          = mapSet st.1.runningTasks t.Id { rt with config := t } ∧
        (scheduleTask x a t st).1.1.nextUid = st.1.nextUid ∧
        (scheduleTask x a t st).1.1.trace = st.1.trace ++
          [Effect.taskStop rt.uid, Effect.taskSchedule rt.uid, Effect.generateAgain t.Id]) ∨
      (∃ rt, mapGet st.1.runningTasks t.Id = some rt ∧ rt.config.Version ≠ t.Version ∧
        t.Schedule.length = 0 ∧
        (scheduleTask x a t st).1.1.runningTasks = st.1.runningTasks ∧
        (scheduleTask x a t st).1.1.nextUid = st.1.nextUid ∧
        (scheduleTask x a t st).1.1.trace = st.1.trace ++
          [Effect.taskStop rt.uid, Effect.generateAgain t.Id]) ∨
      (mapGet st.1.runningTasks t.Id = none ∧ 0 < t.Schedule.length ∧
        (scheduleTask x a t st).1.1.runningTasks
          = mapSet st.1.runningTasks t.Id (NewTask st.1.nextUid a t) ∧
        (scheduleTask x a t st).1.1.nextUid = st.1.nextUid + 1 ∧
        (scheduleTask x a t st).1.1.trace = st.1.trace ++
          [Effect.taskSchedule st.1.nextUid, Effect.generateAgain t.Id]) ∨
      (mapGet st.1.runningTasks t.Id = none ∧ t.Schedule.length = 0 ∧
        (scheduleTask x a t st).1.1.runningTasks = st.1.runningTasks ∧
        (scheduleTask x a t st).1.1.nextUid = st.1.nextUid ∧
        (scheduleTask x a t st).1.1.trace = st.1.trace ++ [Effect.generateAgain t.Id])) := by
  rcases hget : mapGet st.1.runningTasks t.Id with _ | rt
  · by_cases hs : 0 < t.Schedule.length
    · cases hg : x.generateAgain t <;>
        simp [scheduleTask, reconcileTask, hon, hget, hs, hg, Agent.emit, SameGlobals, NewTask]
    · have hs0 : t.Schedule.length = 0 := by omega
      cases hg : x.generateAgain t <;>
        simp [scheduleTask, reconcileTask, hon, hget, hs0, hg, Agent.emit, SameGlobals]
  · by_cases hv : rt.config.Version = t.Version
    · simp [scheduleTask, reconcileTask, hon, hget, hv, SameGlobals]
    · by_cases hs : 0 < t.Schedule.length
      · cases hg : x.generateAgain t <;>
          simp [scheduleTask, reconcileTask, hon, hget, hv, hs, hg, Agent.emit, SameGlobals]
      · have hs0 : t.Schedule.length = 0 := by omega
        cases hg : x.generateAgain t <;>
          simp [scheduleTask, reconcileTask, hon, hget, hv, hs0, hg, Agent.emit, SameGlobals]

theorem SameGlobals.refl (s : Agent) : SameGlobals s s :=
  ⟨rfl, rfl, rfl, rfl, rfl⟩

theorem SameGlobals.trans {s s1 s2 : Agent} (h1 : SameGlobals s s1) (h2 : SameGlobals s1 s2) :
    SameGlobals s s2 :=
  ⟨h2.1.trans h1.1, h2.2.1.trans h1.2.1, h2.2.2.1.trans h1.2.2.1,
    h2.2.2.2.1.trans h1.2.2.2.1, h2.2.2.2.2.trans h1.2.2.2.2⟩

/-- A property of the loop state that every step on an enabled task of the list preserves
holds after the loop, however the loop ends. -/
theorem runTasks_invariant (x : Lib) (P : Agent × List String → Prop)
    (l : List (String × TaskConfig))
    (hstep : ∀ p ∈ l, ∀ st, P st → P (scheduleTask x p.1 p.2 st).1)
    (st : Agent × List String) (h : P st) : P (runTasks x l st).1 := by
  induction l generalizing st with
  | nil => exact h
  | cons p rest ih =>
    have h1 := hstep p (List.mem_cons_self _ _) st h
    simp only [runTasks]
    rcases hres : scheduleTask x p.1 p.2 st with ⟨st1, _ | err⟩
    · rw [hres] at h1
      exact ih (fun q hq => hstep q (List.mem_cons_of_mem _ hq)) st1 h1
    · rw [hres] at h1
      exact h1

theorem runTasks_frame (x : Lib) (l : List (String × TaskConfig))
    (hon : ∀ p ∈ l, p.2.On = true) (st : Agent × List String) :
    SameGlobals st.1 (runTasks x l st).1.1 ∧
      (runTasks x l st).1.1.runningItems = st.1.runningItems := by
  refine runTasks_invariant x
    (fun st1 => SameGlobals st.1 st1.1 ∧ st1.1.runningItems = st.1.runningItems) l ?_ st
    ⟨SameGlobals.refl _, rfl⟩
  intro p hp st1 h1
  obtain ⟨_, hg, hi, _⟩ := scheduleTask_cases x p.1 p.2 st1 (hon p hp)
  exact ⟨h1.1.trans hg, hi.trans h1.2⟩

theorem runTasks_ids (x : Lib) (l : List (String × TaskConfig))
    (hon : ∀ p ∈ l, p.2.On = true) (st : Agent × List String)
    (hok : (runTasks x l st).2 = none) :
    (runTasks x l st).1.2 = st.2 ++ l.map (fun p => p.2.Id) := by
  induction l generalizing st with
  | nil => simp [runTasks]
  | cons p rest ih =>
    have hc := (scheduleTask_cases x p.1 p.2 st (hon p (List.mem_cons_self _ _))).1
    simp only [runTasks] at hok ⊢
    rcases hres : scheduleTask x p.1 p.2 st with ⟨st1, _ | err⟩
    · rw [hres] at hok hc
      simp only [] at hok hc ⊢
      rw [ih (fun q hq => hon q (List.mem_cons_of_mem _ hq)) st1 hok, hc]
      simp
    · rw [hres] at hok
      simp at hok

theorem runTasks_get_other (x : Lib) (l : List (String × TaskConfig))
    (hon : ∀ p ∈ l, p.2.On = true) (k : String) (hk : ∀ p ∈ l, p.2.Id ≠ k)
    (st : Agent × List String) :
    mapGet (runTasks x l st).1.1.runningTasks k = mapGet st.1.runningTasks k := by
  refine runTasks_invariant x
    (fun st1 => mapGet st1.1.runningTasks k = mapGet st.1.runningTasks k) l ?_ st rfl
  intro p hp st1 h1
  have hne : k ≠ p.2.Id := fun e => hk p hp e.symm
  obtain ⟨_, _, _, hc⟩ := scheduleTask_cases x p.1 p.2 st1 (hon p hp)
  rcases hc with ⟨rt, _, _, h⟩ | ⟨rt, _, _, _, h, _⟩ | ⟨rt, _, _, _, h, _⟩ | ⟨_, _, h, _⟩ |
    ⟨_, _, h, _⟩
  · rw [h]; exact h1
  · rw [h, mapGet_mapSet_ne _ _ _ _ hne]; exact h1
  · rw [h]; exact h1
  · rw [h, mapGet_mapSet_ne _ _ _ _ hne]; exact h1
  · rw [h]; exact h1

theorem count_append_le (ef : Effect) (l es : List Effect) :
    l.count ef ≤ (l ++ es).count ef := by
  rw [List.count_append]
  exact Nat.le_add_right _ _

theorem runTasks_count_mono (x : Lib) (l : List (String × TaskConfig))
    (hon : ∀ p ∈ l, p.2.On = true) (ef : Effect) (st : Agent × List String) :
    st.1.trace.count ef ≤ (runTasks x l st).1.1.trace.count ef := by
  refine runTasks_invariant x
    (fun st1 => st.1.trace.count ef ≤ st1.1.trace.count ef) l ?_ st (le_refl _)
  intro p hp st1 h1
  obtain ⟨_, _, _, hc⟩ := scheduleTask_cases x p.1 p.2 st1 (hon p hp)
  rcases hc with ⟨rt, _, _, h⟩ | ⟨rt, _, _, _, _, _, h⟩ | ⟨rt, _, _, _, _, _, h⟩ |
    ⟨_, _, _, _, h⟩ | ⟨_, _, _, _, h⟩
  · rw [h]; exact h1
  all_goals
    rw [h]
    exact le_trans h1 (count_append_le _ _ _)

/-! ## Script names -/

theorem scriptName_toList (id : String) :
    (scriptName id).toList = "task.".toList ++ (id.toList ++ ".script".toList) := by
  simp [scriptName, String.toList, String.data_append, List.append_assoc]

theorem scriptTaskId_scriptName (id : String) : scriptTaskId (scriptName id) = id := by
  unfold scriptTaskId
  rw [scriptName_toList]
  have h5 : "task.".toList.length = 5 := by decide
  have h7 : ".script".toList.length = 7 := by decide
  rw [List.drop_left' h5]
  have hlen : ("task.".toList ++ (id.toList ++ ".script".toList)).length - 7 - 5
      = id.toList.length := by
    simp only [List.length_append, h5, h7]
    omega
  rw [hlen, List.take_left']
  rfl
  rfl

theorem matchTaskScript_scriptName (id : String) :
    matchTaskScript (scriptName id) = true ↔ 0 < id.length ∧ ∀ c ∈ id.toList, isWordChar c = true := by
  unfold matchTaskScript
  simp only [scriptName_toList]
  have h5 : "task.".toList.length = 5 := by decide
  have h7 : ".script".toList.length = 7 := by decide
  have hl : id.toList.length = id.length := by cases id; rfl
  have hlen : ("task.".toList ++ (id.toList ++ ".script".toList)).length = 5 + id.length + 7 := by
    simp only [List.length_append, h5, h7, hl]
    omega
  have e1 : ("task.".toList ++ (id.toList ++ ".script".toList)).take 5 = "task.".toList :=
    List.take_left' h5
  have e2 : ("task.".toList ++ (id.toList ++ ".script".toList)).drop (5 + id.length + 7 - 7)
      = ".script".toList := by
    have : 5 + id.length + 7 - 7 = ("task.".toList ++ id.toList).length := by
      simp only [List.length_append, h5, hl]
      omega
    rw [this, ← List.append_assoc, List.drop_left]
  have e3 : (("task.".toList ++ (id.toList ++ ".script".toList)).drop 5).take
      (5 + id.length + 7 - 12) = id.toList := by
    rw [List.drop_left' h5]
    have : 5 + id.length + 7 - 12 = id.toList.length := by
      rw [hl]
      omega
    rw [this, List.take_left']
    rfl
  rw [hlen, e1, e2, e3]
  simp only [beq_self_eq_true, Bool.and_true, Bool.and_eq_true, decide_eq_true_eq, List.all_eq_true]
  constructor
  · rintro ⟨h1, h2⟩
    exact ⟨by omega, h2⟩
  · rintro ⟨h1, h2⟩
    exact ⟨by omega, h2⟩

theorem eq_scriptName_of_match (f : String) (h : matchTaskScript f = true) :
    f = scriptName (scriptTaskId f) := by
  unfold matchTaskScript at h
  simp only [Bool.and_eq_true, decide_eq_true_eq, beq_iff_eq] at h
  obtain ⟨⟨⟨hlen, hpre⟩, hsuf⟩, _⟩ := h
  have hsplit : f.toList = f.toList.take 5
      ++ ((f.toList.drop 5).take (f.toList.length - 7 - 5) ++ f.toList.drop (f.toList.length - 7)) := by
    have h1 : f.toList.drop (f.toList.length - 7)
        = (f.toList.drop 5).drop (f.toList.length - 7 - 5) := by
      rw [List.drop_drop]
      congr 1
      omega
    rw [h1, List.take_append_drop, List.take_append_drop]
  apply String.ext
  have hname : (scriptName (scriptTaskId f)).data
      = "task.".toList ++ ((scriptTaskId f).toList ++ ".script".toList) :=
    scriptName_toList _
  rw [hname]
  have hid : (scriptTaskId f).toList = (f.toList.drop 5).take (f.toList.length - 7 - 5) := rfl
  rw [hid, ← hpre, ← hsuf]
  exact hsplit

/-! ## Second and third loop of `scheduleTasks` -/

theorem mapGet_filter_key {α : Type} (m : List (String × α)) (q : String → Bool) (k : String) :
    mapGet (m.filter (fun p => q p.1)) k = if q k = true then mapGet m k else none := by
  induction m with
  | nil => simp [mapGet]
  | cons p m ih =>
    obtain ⟨k1, v⟩ := p
    by_cases h1 : k1 = k
    · subst h1
      by_cases hq : q k1 = true
      · simp [List.filter_cons, hq, mapGet]
      · simp only [List.filter_cons, hq, if_false, mapGet] at ih ⊢
        simpa [hq] using ih
    · by_cases hq1 : q k1 = true
      · simp only [List.filter_cons, hq1, if_true, mapGet, h1, if_false]
        exact ih
      · simp only [List.filter_cons, hq1, if_false, mapGet, h1]
        exact ih

theorem stopAbsentTasks_spec (ids : List String) (l : List (String × Task)) (s : Agent) :
    SameGlobals s (stopAbsentTasks ids l s) ∧
      (stopAbsentTasks ids l s).runningItems = s.runningItems ∧
      (stopAbsentTasks ids l s).agentsDir = s.agentsDir ∧
      (stopAbsentTasks ids l s).nextUid = s.nextUid ∧
      (stopAbsentTasks ids l s).trace = s.trace ++
        (l.filter (fun p => decide (p.1 ∉ ids))).map (fun p => Effect.taskStop p.2.uid) ∧
      (stopAbsentTasks ids l s).runningTasks
        = s.runningTasks.filter (fun p => decide (p.1 ∈ ids ∨ p.1 ∉ l.map Prod.fst)) := by
  induction l generalizing s with
  | nil => simp [stopAbsentTasks, SameGlobals.refl]
  | cons q rest ih =>
    obtain ⟨k, rt⟩ := q
    by_cases hk : k ∈ ids
    · have e : stopAbsentTasks ids ((k, rt) :: rest) s = stopAbsentTasks ids rest s := by
        simp [stopAbsentTasks, hk]
      rw [e]
      obtain ⟨h1, h2, h3, h4, h5, h6⟩ := ih s
      refine ⟨h1, h2, h3, h4, ?_, ?_⟩
      · rw [h5]
        simp [List.filter_cons, hk]
      · rw [h6]
        apply List.filter_congr
        intro p _
        by_cases hp : p.1 = k
        · simp [hp, hk]
        · have hb : (p.1 == k) = false := by simpa using hp
          simp [hp, hb]
    · have e : stopAbsentTasks ids ((k, rt) :: rest) s = stopAbsentTasks ids rest
          ({ s with runningTasks := mapDelete s.runningTasks k }.emit
            (Effect.taskStop rt.uid)) := by
        simp [stopAbsentTasks, hk]
      rw [e]
      obtain ⟨h1, h2, h3, h4, h5, h6⟩ :=
        ih ({ s with runningTasks := mapDelete s.runningTasks k }.emit (Effect.taskStop rt.uid))
      refine ⟨h1, h2, h3, h4, ?_, ?_⟩
      · rw [h5]
        simp [List.filter_cons, hk, Agent.emit]
      · rw [h6]
        simp only [Agent.emit, mapDelete, List.filter_filter]
        apply List.filter_congr
        intro p _
        by_cases hp : p.1 = k
        · simp [hp, hk]
        · have hb : (p.1 == k) = false := by simpa using hp
          simp [hp, hb]

theorem stopAbsentTasks_get (ids : List String) (s : Agent) (k : String) :
    mapGet (stopAbsentTasks ids s.runningTasks s).runningTasks k
      = if k ∈ ids then mapGet s.runningTasks k else none := by
  have h := (stopAbsentTasks_spec ids s.runningTasks s).2.2.2.2.2
  have h1 : s.runningTasks.filter
        (fun p => decide (p.1 ∈ ids ∨ p.1 ∉ s.runningTasks.map Prod.fst))
      = s.runningTasks.filter (fun p => (fun k1 => decide (k1 ∈ ids)) p.1) := by
    apply List.filter_congr
    intro p hp
    have : p.1 ∈ s.runningTasks.map Prod.fst := List.mem_map_of_mem _ hp
    simp [this]
  rw [h, h1]
  exact (mapGet_filter_key s.runningTasks (fun k1 => decide (k1 ∈ ids)) k).trans (by simp)

theorem cleanScripts_spec (x : Lib) (ids : List String) (l : List String) (s : Agent) :
    SameGlobals s (cleanScripts x ids l s) ∧
      (cleanScripts x ids l s).runningItems = s.runningItems ∧
      (cleanScripts x ids l s).runningTasks = s.runningTasks ∧
      (cleanScripts x ids l s).nextUid = s.nextUid ∧
      (∃ es, (cleanScripts x ids l s).trace = s.trace ++ es ∧
        ∀ ef ∈ es, ∃ name, ef = Effect.fileDelete name) ∧
      (∀ f ∈ (cleanScripts x ids l s).agentsDir, f ∈ s.agentsDir ∧
        (f ∈ l → matchTaskScript f = true → scriptTaskId f ∈ ids ∨ x.fileDelete f = false)) ∧
      (∀ f ∈ s.agentsDir, matchTaskScript f = false ∨ scriptTaskId f ∈ ids →
        f ∈ (cleanScripts x ids l s).agentsDir) := by
  induction l generalizing s with
  | nil =>
    refine ⟨SameGlobals.refl _, rfl, rfl, rfl, ⟨[], by simp [cleanScripts], by simp⟩, ?_, ?_⟩
    · intro f hf
      exact ⟨hf, fun h => absurd h (List.not_mem_nil _)⟩
    · intro f hf _
      exact hf
  | cons name rest ih =>
    by_cases hm : matchTaskScript name = false
    · have e : cleanScripts x ids (name :: rest) s = cleanScripts x ids rest s := by
        simp [cleanScripts, hm]
      rw [e]
      obtain ⟨h1, h2, h3, h4, h5, h6, h7⟩ := ih s
      refine ⟨h1, h2, h3, h4, h5, ?_, h7⟩
      intro f hf
      refine ⟨(h6 f hf).1, fun hmem hmatch => ?_⟩
      rcases List.mem_cons.mp hmem with e1 | e1
      · rw [e1, hm] at hmatch
        exact absurd hmatch (by simp)
      · exact (h6 f hf).2 e1 hmatch
    · by_cases hid : scriptTaskId name ∈ ids
      · have e : cleanScripts x ids (name :: rest) s = cleanScripts x ids rest s := by
          simp [cleanScripts, hid]
        rw [e]
        obtain ⟨h1, h2, h3, h4, h5, h6, h7⟩ := ih s
        refine ⟨h1, h2, h3, h4, h5, ?_, h7⟩
        intro f hf
        refine ⟨(h6 f hf).1, fun hmem hmatch => ?_⟩
        rcases List.mem_cons.mp hmem with e1 | e1
        · rw [e1]
          exact Or.inl hid
        · exact (h6 f hf).2 e1 hmatch
      · by_cases hd : x.fileDelete name = true
        · have e : cleanScripts x ids (name :: rest) s = cleanScripts x ids rest
              { s.emit (Effect.fileDelete name) with
                agentsDir := (s.emit (Effect.fileDelete name)).agentsDir.filter
                  (fun f => decide (f ≠ name)) } := by
            simp [cleanScripts, hm, hid, hd]
          rw [e]
          obtain ⟨h1, h2, h3, h4, ⟨es, h5, h5a⟩, h6, h7⟩ := ih
            { s.emit (Effect.fileDelete name) with
              agentsDir := (s.emit (Effect.fileDelete name)).agentsDir.filter
                (fun f => decide (f ≠ name)) }
          refine ⟨h1, h2, h3, h4, ⟨Effect.fileDelete name :: es, ?_, ?_⟩, ?_, ?_⟩
          · rw [h5]
            simp [Agent.emit]
          · intro ef hef
            rcases List.mem_cons.mp hef with e1 | e1
            · exact ⟨name, e1⟩
            · exact h5a ef e1
          · intro f hf
            have hf1 := (h6 f hf).1
            simp only [Agent.emit, List.mem_filter, decide_eq_true_eq] at hf1
            refine ⟨hf1.1, fun hmem hmatch => ?_⟩
            rcases List.mem_cons.mp hmem with e1 | e1
            · exact absurd e1 hf1.2
            · exact (h6 f hf).2 e1 hmatch
          · intro f hf hkeep
            apply h7 f _ hkeep
            simp only [Agent.emit, List.mem_filter, decide_eq_true_eq]
            refine ⟨hf, fun e1 => ?_⟩
            rw [e1] at hkeep
            rcases hkeep with h | h
            · exact hm h
            · exact hid h
        · have e : cleanScripts x ids (name :: rest) s = cleanScripts x ids rest
              (s.emit (Effect.fileDelete name)) := by
            simp [cleanScripts, hm, hid, hd]
          rw [e]
          obtain ⟨h1, h2, h3, h4, ⟨es, h5, h5a⟩, h6, h7⟩ := ih (s.emit (Effect.fileDelete name))
          refine ⟨h1, h2, h3, h4, ⟨Effect.fileDelete name :: es, ?_, ?_⟩, ?_, h7⟩
          · rw [h5]
            simp [Agent.emit]
          · intro ef hef
            rcases List.mem_cons.mp hef with e1 | e1
            · exact ⟨name, e1⟩
            · exact h5a ef e1
          · intro f hf
            refine ⟨(h6 f hf).1, fun hmem hmatch => ?_⟩
            rcases List.mem_cons.mp hmem with e1 | e1
            · rw [e1]
              exact Or.inr (by simpa using hd)
            · exact (h6 f hf).2 e1 hmatch

/-! ## Identity of executors through the first loop -/

theorem mapSet_of_none {α : Type} (m : List (String × α)) (k : String) (v : α)
    (h : mapGet m k = none) : mapSet m k v = m ++ [(k, v)] := by
  induction m with
  | nil => rfl
  | cons p m ih =>
    obtain ⟨k1, v1⟩ := p
    by_cases h1 : k1 = k
    · simp [mapGet, h1] at h
    · simp only [mapGet, h1, if_false] at h
      simp [mapSet, h1, ih h]

theorem mapSet_map_of_some {α β : Type} (f : α → β) (m : List (String × α)) (k : String)
    (v w : α) (h : mapGet m k = some w) (hf : f v = f w) :
    (mapSet m k v).map (fun p => f p.2) = m.map (fun p => f p.2) := by
  induction m with
  | nil => simp [mapGet] at h
  | cons p m ih =>
    obtain ⟨k1, v1⟩ := p
    by_cases h1 : k1 = k
    · simp only [mapGet, h1, if_true, Option.some.injEq] at h
      simp [mapSet, h1, hf, h]
    · simp only [mapGet, h1, if_false] at h
      simp [mapSet, h1, ih h]

theorem mem_mapSet {α : Type} (m : List (String × α)) (k : String) (v : α) (p : String × α)
    (h : p ∈ mapSet m k v) : p ∈ m ∨ p = (k, v) := by
  induction m with
  | nil =>
    right
    simpa [mapSet] using h
  | cons q m ih =>
    obtain ⟨k1, v1⟩ := q
    by_cases h1 : k1 = k
    · simp only [mapSet, h1, if_true, List.mem_cons] at h
      rcases h with h | h
      · exact Or.inr h
      · exact Or.inl (List.mem_cons_of_mem _ h)
    · simp only [mapSet, h1, if_false, List.mem_cons] at h
      rcases h with h | h
      · exact Or.inl (h ▸ List.mem_cons_self _ _)
      · rcases ih h with h2 | h2
        · exact Or.inl (List.mem_cons_of_mem _ h2)
        · exact Or.inr h2

theorem scheduleTask_wf (x : Lib) (a : String) (t : TaskConfig) (st : Agent × List String)
    (hon : t.On = true) (hwf : TasksWF st.1) : TasksWF (scheduleTask x a t st).1.1 := by
  obtain ⟨hnd, hlt⟩ := hwf
  obtain ⟨_, _, _, hc⟩ := scheduleTask_cases x a t st hon
  rcases hc with ⟨rt, _, _, h⟩ | ⟨rt, hget, _, _, h, hn, _⟩ | ⟨rt, _, _, _, h, hn, _⟩ |
    ⟨hget, _, h, hn, _⟩ | ⟨_, _, h, hn, _⟩
  · rw [h]
    exact ⟨hnd, hlt⟩
  · refine ⟨?_, ?_⟩
    · have hm := mapSet_map_of_some (fun v : Task => v.uid) st.1.runningTasks t.Id
        { rt with config := t } rt hget rfl
      rw [h, hm]
      exact hnd
    · intro p hp
      rw [h] at hp
      rw [hn]
      rcases mem_mapSet _ _ _ _ hp with h1 | h1
      · exact hlt p h1
      · rw [h1]
        exact hlt (t.Id, rt) (mem_of_mapGet _ _ _ hget)
  · refine ⟨by rw [h]; exact hnd, ?_⟩
    intro p hp
    rw [h] at hp
    rw [hn]
    exact hlt p hp
  · rw [mapSet_of_none _ _ _ hget] at h
    refine ⟨?_, ?_⟩
    · rw [h, List.map_append, List.nodup_append]
      refine ⟨hnd, by simp, ?_⟩
      intro u hu hu1
      simp only [List.map_cons, List.map_nil, List.mem_singleton, NewTask] at hu1
      obtain ⟨p, hp, rfl⟩ := List.mem_map.mp hu
      have := hlt p hp
      omega
    · intro p hp
      rw [h, List.mem_append] at hp
      rw [hn]
      rcases hp with h1 | h1
      · exact Nat.lt_succ_of_lt (hlt p h1)
      · simp only [List.mem_singleton] at h1
        rw [h1]
        simp [NewTask]
  · refine ⟨by rw [h]; exact hnd, ?_⟩
    intro p hp
    rw [h] at hp
    rw [hn]
    exact hlt p hp

theorem uid_ne_of_key_ne (s : Agent) (hwf : TasksWF s) (k1 k2 : String) (v1 v2 : Task)
    (h1 : mapGet s.runningTasks k1 = some v1) (h2 : mapGet s.runningTasks k2 = some v2)
    (hne : k1 ≠ k2) : v1.uid ≠ v2.uid := by
  intro hu
  have h := List.inj_on_of_nodup_map hwf.1 (mem_of_mapGet _ _ _ h1) (mem_of_mapGet _ _ _ h2) hu
  exact hne (congrArg Prod.fst h)

/-- A step of the first loop leaves alone an executor held under another id, or under the
same id with the version of the task: the entry, and the numbers of `Stop`, `Schedule` and
`GenerateAgain` calls recorded for it, stay the same. -/
theorem scheduleTask_untouched (x : Lib) (a : String) (t : TaskConfig)
    (st : Agent × List String) (hon : t.On = true) (hwf : TasksWF st.1) (id : String) (e : Task)
    (hget : mapGet st.1.runningTasks id = some e)
    (hsame : t.Id = id → t.Version = e.config.Version) :
    mapGet (scheduleTask x a t st).1.1.runningTasks id = some e ∧
      (scheduleTask x a t st).1.1.trace.count (Effect.taskStop e.uid)
        = st.1.trace.count (Effect.taskStop e.uid) ∧
      (scheduleTask x a t st).1.1.trace.count (Effect.taskSchedule e.uid)
        = st.1.trace.count (Effect.taskSchedule e.uid) ∧
      (scheduleTask x a t st).1.1.trace.count (Effect.generateAgain id)
        = st.1.trace.count (Effect.generateAgain id) := by
  obtain ⟨_, _, _, hc⟩ := scheduleTask_cases x a t st hon
  by_cases hid : t.Id = id
  · have hv := hsame hid
    rw [← hid] at hget
    rcases hc with ⟨rt, _, _, h⟩ | ⟨rt, hg, hne, _⟩ | ⟨rt, hg, hne, _⟩ | ⟨hg, _⟩ | ⟨hg, _⟩
    · rw [h, ← hid]
      exact ⟨hget, rfl, rfl, rfl⟩
    · rw [hget] at hg
      exact absurd (by rw [← Option.some.inj hg]; exact hv.symm) hne
    · rw [hget] at hg
      exact absurd (by rw [← Option.some.inj hg]; exact hv.symm) hne
    · rw [hget] at hg
      exact absurd hg (by simp)
    · rw [hget] at hg
      exact absurd hg (by simp)
  · have hid1 : id ≠ t.Id := fun h => hid h.symm
    have hlt : e.uid < st.1.nextUid := hwf.2 _ (mem_of_mapGet _ _ _ hget)
    have hgen : Effect.generateAgain t.Id ≠ Effect.generateAgain id := by
      intro h
      exact hid (Effect.generateAgain.inj h)
    rcases hc with ⟨rt, _, _, h⟩ | ⟨rt, hg, _, _, h, _, htr⟩ | ⟨rt, hg, _, _, h, _, htr⟩ |
      ⟨hg, _, h, _, htr⟩ | ⟨hg, _, h, _, htr⟩
    · rw [h]
      exact ⟨hget, rfl, rfl, rfl⟩
    · have hu : rt.uid ≠ e.uid := uid_ne_of_key_ne st.1 hwf _ _ _ _ hg hget hid
      rw [h, htr, mapGet_mapSet_ne _ _ _ _ hid1]
      refine ⟨hget, ?_, ?_, ?_⟩ <;> simp [List.count_append, List.count_cons, hu, hid]
    · have hu : rt.uid ≠ e.uid := uid_ne_of_key_ne st.1 hwf _ _ _ _ hg hget hid
      rw [h, htr]
      refine ⟨hget, ?_, ?_, ?_⟩ <;> simp [List.count_append, List.count_cons, hu, hid]
    · have hu : st.1.nextUid ≠ e.uid := by omega
      rw [h, htr, mapGet_mapSet_ne _ _ _ _ hid1]
      refine ⟨hget, ?_, ?_, ?_⟩ <;> simp [List.count_append, List.count_cons, hu, hid]
    · rw [h, htr]
      refine ⟨hget, ?_, ?_, ?_⟩ <;> simp [List.count_append, List.count_cons, hid]

theorem runTasks_untouched (x : Lib) (l : List (String × TaskConfig))
    (hon : ∀ p ∈ l, p.2.On = true) (st : Agent × List String) (hwf : TasksWF st.1)
    (id : String) (e : Task) (hget : mapGet st.1.runningTasks id = some e)
    (hsame : ∀ p ∈ l, p.2.Id = id → p.2.Version = e.config.Version) :
    TasksWF (runTasks x l st).1.1 ∧
      mapGet (runTasks x l st).1.1.runningTasks id = some e ∧
      (runTasks x l st).1.1.trace.count (Effect.taskStop e.uid)
        = st.1.trace.count (Effect.taskStop e.uid) ∧
      (runTasks x l st).1.1.trace.count (Effect.taskSchedule e.uid)
        = st.1.trace.count (Effect.taskSchedule e.uid) ∧
      (runTasks x l st).1.1.trace.count (Effect.generateAgain id)
        = st.1.trace.count (Effect.generateAgain id) := by
  refine runTasks_invariant x
    (fun st1 => TasksWF st1.1 ∧ mapGet st1.1.runningTasks id = some e ∧
      st1.1.trace.count (Effect.taskStop e.uid) = st.1.trace.count (Effect.taskStop e.uid) ∧
      st1.1.trace.count (Effect.taskSchedule e.uid)
        = st.1.trace.count (Effect.taskSchedule e.uid) ∧
      st1.1.trace.count (Effect.generateAgain id)
        = st.1.trace.count (Effect.generateAgain id)) l ?_ st ⟨hwf, hget, rfl, rfl, rfl⟩
  intro p hp st1 ⟨h1, h2, h3, h4, h5⟩
  obtain ⟨g1, g2, g3, g4⟩ :=
    scheduleTask_untouched x p.1 p.2 st1 (hon p hp) h1 id e h2 (hsame p hp)
  exact ⟨scheduleTask_wf x p.1 p.2 st1 (hon p hp) h1, g1, g2.trans h3, g3.trans h4,
    g4.trans h5⟩

theorem scheduleTasks_run (x : Lib) (s : Agent) (agent : AgentConfig)
    (h : s.runningAgent = some agent) :
    scheduleTasks x s =
      match runTasks x (enabledTasks agent.Apps) (s.emit Effect.enterScheduleTasks, []) with
      | (st, some err) => some (st.1, some err)
      | (st, none) =>
        some (cleanScripts x st.2 (stopAbsentTasks st.2 st.1.runningTasks st.1).agentsDir
          (stopAbsentTasks st.2 st.1.runningTasks st.1), none) := by
  simp only [scheduleTasks, h, scheduleApps_eq]

theorem count_append_fileDelete (l es : List Effect) (ef : Effect)
    (hes : ∀ e1 ∈ es, ∃ name, e1 = Effect.fileDelete name)
    (hef : ∀ name, ef ≠ Effect.fileDelete name) : (l ++ es).count ef = l.count ef := by
  have h0 : es.count ef = 0 := by
    apply List.count_eq_zero_of_not_mem
    intro hmem
    obtain ⟨name, hn⟩ := hes ef hmem
    exact hef name hn
  rw [List.count_append, h0, Nat.add_zero]

theorem count_stops_other (l : List (String × Task)) (ef : Effect)
    (hef : ∀ u, ef ≠ Effect.taskStop u) :
    (l.map (fun p => Effect.taskStop p.2.uid)).count ef = 0 := by
  apply List.count_eq_zero_of_not_mem
  intro hmem
  obtain ⟨p, _, hp⟩ := List.mem_map.mp hmem
  exact hef _ hp.symm

theorem count_stop_absent (s : Agent) (hwf : TasksWF s) (ids : List String) (id : String)
    (e : Task) (hget : mapGet s.runningTasks id = some e) :
    ((s.runningTasks.filter (fun p => decide (p.1 ∉ ids))).map
        (fun p => Effect.taskStop p.2.uid)).count (Effect.taskStop e.uid)
      = if id ∈ ids then 0 else 1 := by
  have hinj : Function.Injective Effect.taskStop := fun a b h => Effect.taskStop.inj h
  have hmap : (s.runningTasks.filter (fun p => decide (p.1 ∉ ids))).map
        (fun p => Effect.taskStop p.2.uid)
      = ((s.runningTasks.filter (fun p => decide (p.1 ∉ ids))).map
          (fun p => p.2.uid)).map Effect.taskStop := by
    simp [List.map_map]
  have hnd : ((s.runningTasks.filter (fun p => decide (p.1 ∉ ids))).map
      (fun p => p.2.uid)).Nodup :=
    List.Nodup.sublist (List.Sublist.map _ (List.filter_sublist _)) hwf.1
  rw [hmap, List.count_map_of_injective _ _ hinj]
  by_cases hid : id ∈ ids
  · rw [if_pos hid]
    apply List.count_eq_zero_of_not_mem
    intro hmem
    obtain ⟨p, hp, hu⟩ := List.mem_map.mp hmem
    rw [List.mem_filter] at hp
    have heq := List.inj_on_of_nodup_map hwf.1 hp.1 (mem_of_mapGet _ _ _ hget) hu
    have hk : p.1 ∉ ids := by simpa using hp.2
    rw [heq] at hk
    exact hk hid
  · rw [if_neg hid]
    apply List.count_eq_one_of_mem hnd
    apply List.mem_map.mpr
    refine ⟨(id, e), ?_, rfl⟩
    rw [List.mem_filter]
    exact ⟨mem_of_mapGet _ _ _ hget, by simpa using hid⟩

theorem count_emit_ne (s : Agent) (ef e1 : Effect) (h : e1 ≠ ef) :
    (s.emit e1).trace.count ef = s.trace.count ef := by
  simp [Agent.emit, List.count_append, List.count_cons, h]

/-- C7 (an unchanged version is left untouched). Let the installed config list the id among
its enabled tasks of enabled apps, let the executor running under that id have the version the
config gives for the id, and let the running executors be distinct objects. Then
`scheduleTasks` returns, and whether or not it returns an error the map holds the very same
executor with the same config under that id, and no `Stop`, no `Schedule` and no
`GenerateAgain` call was made for it. -/
theorem scheduleTasks_unchanged_version (x : Lib) (s : Agent) (agent : AgentConfig)
    (id : String) (e : Task)
    (hcfg : s.runningAgent = some agent) (hwf : TasksWF s)
    (hrun : mapGet s.runningTasks id = some e)
    (hmem : id ∈ enabledTaskIds agent.Apps)
    (hver : ∀ p ∈ enabledTasks agent.Apps, p.2.Id = id → p.2.Version = e.config.Version) :
    ∃ s1 r, scheduleTasks x s = some (s1, r) ∧
      mapGet s1.runningTasks id = some e ∧
      s1.trace.count (Effect.taskStop e.uid) = s.trace.count (Effect.taskStop e.uid) ∧
      s1.trace.count (Effect.taskSchedule e.uid) = s.trace.count (Effect.taskSchedule e.uid) ∧
      s1.trace.count (Effect.generateAgain id) = s.trace.count (Effect.generateAgain id) := by
  have hon := enabledTasks_on agent.Apps
  obtain ⟨h1, h2, h3, h4, h5⟩ := runTasks_untouched x (enabledTasks agent.Apps) hon
    (s.emit Effect.enterScheduleTasks, []) hwf id e hrun hver
  have hids := runTasks_ids x (enabledTasks agent.Apps) hon (s.emit Effect.enterScheduleTasks, [])
  rw [count_emit_ne s _ _ (by simp)] at h3 h4 h5
  rw [scheduleTasks_run x s agent hcfg]
  rcases hres : runTasks x (enabledTasks agent.Apps) (s.emit Effect.enterScheduleTasks, [])
    with ⟨st, _ | err⟩
  · rw [hres] at h1 h2 h3 h4 h5 hids
    have hids1 : st.2 = enabledTaskIds agent.Apps := by
      simpa [enabledTaskIds] using hids rfl
    obtain ⟨_, _, c3, _, ⟨es, c5, c5a⟩, _, _⟩ := cleanScripts_spec x st.2
      (stopAbsentTasks st.2 st.1.runningTasks st.1).agentsDir
      (stopAbsentTasks st.2 st.1.runningTasks st.1)
    have d5 := (stopAbsentTasks_spec st.2 st.1.runningTasks st.1).2.2.2.2.1
    have hin : id ∈ st.2 := by rw [hids1]; exact hmem
    refine ⟨_, none, rfl, ?_, ?_, ?_, ?_⟩
    · rw [c3, stopAbsentTasks_get, if_pos hin]
      exact h2
    · rw [c5, count_append_fileDelete _ _ _ c5a (by simp), d5, List.count_append,
        count_stop_absent st.1 h1 st.2 id e h2, if_pos hin]
      exact h3
    · rw [c5, count_append_fileDelete _ _ _ c5a (by simp), d5, List.count_append,
        count_stops_other _ _ (by simp), Nat.add_zero]
      exact h4
    · rw [c5, count_append_fileDelete _ _ _ c5a (by simp), d5, List.count_append,
        count_stops_other _ _ (by simp), Nat.add_zero]
      exact h5
  · rw [hres] at h2 h3 h4 h5
    exact ⟨_, some err, rfl, h2, h3, h4, h5⟩

/-- Witness of `scheduleTasks_unchanged_version`: `T1` runs at version 1, the config lists
it at version 1 next to a new task `T2`. -/
theorem scheduleTasks_unchanged_version_witness :
    ∃ s1 r, scheduleTasks libOk (agentRunningT1 (configOf [taskT1v1, taskT2] [])) = some (s1, r) ∧
      mapGet s1.runningTasks "T1" = some execT1 ∧
      s1.trace.count (Effect.taskStop execT1.uid) = 0 ∧
      s1.trace.count (Effect.taskSchedule execT1.uid) = 0 ∧
      s1.trace.count (Effect.generateAgain "T1") = 0 :=
  scheduleTasks_unchanged_version libOk (agentRunningT1 (configOf [taskT1v1, taskT2] []))
    (configOf [taskT1v1, taskT2] []) "T1" execT1 rfl ⟨by decide, by decide⟩ (by decide)
    (by decide) (by decide)

/-- Counterexample to C4 as stated: `T1` runs and the new config does not list it, but
`GenerateAgain` fails for the new task `T2`; `scheduleTasks` returns that error before its
second loop, `T1` is still a key of `runningTasks` and `Stop` was never called on it. -/
theorem scheduleTasks_removes_counterexample :
    "T1" ∉ enabledTaskIds (configOf [taskT2] []).Apps ∧
      (scheduleTasks libGenerateFails (agentRunningT1 (configOf [taskT2] []))).map
          (fun r => (r.2, mapGet r.1.runningTasks "T1",
            r.1.trace.count (Effect.taskStop execT1.uid)))
        = some (some "disk full", some execT1, 0) := by
  decide

/-- C4, amended. Let the running executors be distinct objects and let an id be running that
is not the id of an enabled task of an enabled app of the installed config. Then
`scheduleTasks` returns, and if it returns without error the id is no longer a key of
`runningTasks` and `Stop` was called exactly once on its executor. -/
theorem scheduleTasks_removes (x : Lib) (s : Agent) (agent : AgentConfig)
    (id : String) (e : Task)
    (hcfg : s.runningAgent = some agent) (hwf : TasksWF s)
    (hrun : mapGet s.runningTasks id = some e)
    (hnot : id ∉ enabledTaskIds agent.Apps) :
    ∃ s1 r, scheduleTasks x s = some (s1, r) ∧
      (r = none → mapGet s1.runningTasks id = none ∧
        s1.trace.count (Effect.taskStop e.uid) = s.trace.count (Effect.taskStop e.uid) + 1) := by
  have hon := enabledTasks_on agent.Apps
  have hother : ∀ p ∈ enabledTasks agent.Apps, p.2.Id = id → p.2.Version = e.config.Version := by
    intro p hp hid
    exact absurd (hid ▸ List.mem_map_of_mem (fun p => p.2.Id) hp) hnot
  obtain ⟨h1, h2, h3, _, _⟩ := runTasks_untouched x (enabledTasks agent.Apps) hon
    (s.emit Effect.enterScheduleTasks, []) hwf id e hrun hother
  have hids := runTasks_ids x (enabledTasks agent.Apps) hon (s.emit Effect.enterScheduleTasks, [])
  rw [count_emit_ne s _ _ (by simp)] at h3
  rw [scheduleTasks_run x s agent hcfg]
  rcases hres : runTasks x (enabledTasks agent.Apps) (s.emit Effect.enterScheduleTasks, [])
    with ⟨st, _ | err⟩
  · rw [hres] at h1 h2 h3 hids
    have hids1 : st.2 = enabledTaskIds agent.Apps := by
      simpa [enabledTaskIds] using hids rfl
    obtain ⟨_, _, c3, _, ⟨es, c5, c5a⟩, _, _⟩ := cleanScripts_spec x st.2
      (stopAbsentTasks st.2 st.1.runningTasks st.1).agentsDir
      (stopAbsentTasks st.2 st.1.runningTasks st.1)
    have d5 := (stopAbsentTasks_spec st.2 st.1.runningTasks st.1).2.2.2.2.1
    have hout : id ∉ st.2 := by rw [hids1]; exact hnot
    refine ⟨_, none, rfl, fun _ => ⟨?_, ?_⟩⟩
    · rw [c3, stopAbsentTasks_get, if_neg hout]
    · rw [c5, count_append_fileDelete _ _ _ c5a (by simp), d5, List.count_append,
        count_stop_absent st.1 h1 st.2 id e h2, if_neg hout]
      exact congrArg (fun n => n + 1) h3
  · exact ⟨_, some err, rfl, fun h => absurd h (by simp)⟩

/-- Witness of `scheduleTasks_removes`: `T1` runs, the new config lists only `T2`. -/
theorem scheduleTasks_removes_witness :
    (scheduleTasks libOk (agentRunningT1 (configOf [taskT2] []))).map (fun r => r.2)
        = some none ∧
      ∃ s1 r, scheduleTasks libOk (agentRunningT1 (configOf [taskT2] [])) = some (s1, r) ∧
        (r = none → mapGet s1.runningTasks "T1" = none ∧
          s1.trace.count (Effect.taskStop execT1.uid)
            = (agentRunningT1 (configOf [taskT2] [])).trace.count (Effect.taskStop execT1.uid)
              + 1) :=
  ⟨by decide,
    scheduleTasks_removes libOk (agentRunningT1 (configOf [taskT2] [])) (configOf [taskT2] [])
      "T1" execT1 rfl ⟨by decide, by decide⟩ (by decide) (by decide)⟩

/-- Counterexample to C6 as stated. (1) `T1` is enabled without a schedule, so it is not in
the desired set, yet `task.T1.script` is still there after `scheduleTasks` has returned nil.
(2) When `GenerateAgain` fails, `scheduleTasks` returns before the clean-up and the script of
`T1`, a task the config no longer lists, is still there. (3) A file `task.a-b.script` does
not match the pattern and stays although no task `a-b` exists. (4) A script whose
`Delete` fails stays. -/
theorem scheduleTasks_orphans_counterexample :
    ("T1" ∉ desiredTaskIds (configOf [taskT1v2Unscheduled] []).Apps ∧
      (scheduleTasks libOk (agentRunningT1 (configOf [taskT1v2Unscheduled] []))).map
          (fun r => (r.2, decide ("task.T1.script" ∈ r.1.agentsDir)))
        = some (none, true)) ∧
    ("T1" ∉ enabledTaskIds (configOf [taskT2] []).Apps ∧
      (scheduleTasks libGenerateFails (agentRunningT1 (configOf [taskT2] []))).map
          (fun r => (r.2, decide ("task.T1.script" ∈ r.1.agentsDir)))
        = some (some "disk full", true)) ∧
    ((scheduleTasks libOk (agentWithFiles ["task.a-b.script"] (configOf [] []))).map
          (fun r => (r.2, decide ("task.a-b.script" ∈ r.1.agentsDir)))
        = some (none, true)) ∧
    ((scheduleTasks libDeleteFails (agentWithFiles ["task.T9.script"] (configOf [] []))).map
          (fun r => (r.2, decide ("task.T9.script" ∈ r.1.agentsDir)))
        = some (none, true)) := by
  decide

/-- C6, amended. `scheduleTasks` returns, and if it returns without error then every file
left in `configs/agents/` whose name matches `^task\.\w+\.script$` is named
`task.<id>.script` for the id cut out by the code, and either that id is the id of an enabled
task of an enabled app (with or without a schedule) or the `Delete` of the file failed. In
terms of ids: a file `task.<id>.script` with a non-empty id of word characters that is left
has the id of an enabled task of an enabled app, unless its `Delete` failed. -/
theorem scheduleTasks_orphans (x : Lib) (s : Agent) (agent : AgentConfig)
    (hcfg : s.runningAgent = some agent) :
    ∃ s1 r, scheduleTasks x s = some (s1, r) ∧
      (r = none → ∀ f ∈ s1.agentsDir, matchTaskScript f = true →
        f = scriptName (scriptTaskId f) ∧
          (scriptTaskId f ∈ enabledTaskIds agent.Apps ∨ x.fileDelete f = false)) ∧
      (r = none → ∀ id, scriptName id ∈ s1.agentsDir → 0 < id.length →
        (∀ c ∈ id.toList, isWordChar c = true) →
          id ∈ enabledTaskIds agent.Apps ∨ x.fileDelete (scriptName id) = false) := by
  have hon := enabledTasks_on agent.Apps
  have hids := runTasks_ids x (enabledTasks agent.Apps) hon (s.emit Effect.enterScheduleTasks, [])
  rw [scheduleTasks_run x s agent hcfg]
  rcases hres : runTasks x (enabledTasks agent.Apps) (s.emit Effect.enterScheduleTasks, [])
    with ⟨st, _ | err⟩
  · rw [hres] at hids
    have hids1 : st.2 = enabledTaskIds agent.Apps := by
      simpa [enabledTaskIds] using hids rfl
    obtain ⟨_, _, _, _, _, c6, _⟩ := cleanScripts_spec x st.2
      (stopAbsentTasks st.2 st.1.runningTasks st.1).agentsDir
      (stopAbsentTasks st.2 st.1.runningTasks st.1)
    have hmain : ∀ f ∈ (cleanScripts x st.2
        (stopAbsentTasks st.2 st.1.runningTasks st.1).agentsDir
        (stopAbsentTasks st.2 st.1.runningTasks st.1)).agentsDir, matchTaskScript f = true →
        scriptTaskId f ∈ enabledTaskIds agent.Apps ∨ x.fileDelete f = false := by
      intro f hf hmatch
      have h := (c6 f hf).2 (c6 f hf).1 hmatch
      rw [hids1] at h
      exact h
    refine ⟨_, none, rfl, fun _ f hf hmatch => ⟨eq_scriptName_of_match f hmatch,
      hmain f hf hmatch⟩, fun _ id hf hlen hword => ?_⟩
    have h := hmain (scriptName id) hf ((matchTaskScript_scriptName id).mpr ⟨hlen, hword⟩)
    rw [scriptTaskId_scriptName] at h
    exact h
  · exact ⟨_, some err, rfl, fun h => absurd h (by simp), fun h => absurd h (by simp)⟩

/-- Witness of `scheduleTasks_orphans`: the scripts of `T1` (no longer listed) and of an
unknown `T9` are on disk, the config lists `T2`. -/
theorem scheduleTasks_orphans_witness :
    (scheduleTasks libOk
        (agentWithFiles ["task.T1.script", "task.T9.script"] (configOf [taskT2] []))).map
          (fun r => (r.2, r.1.agentsDir))
        = some (none, ["task.T2.script"]) ∧
      ∃ s1 r, scheduleTasks libOk
          (agentWithFiles ["task.T1.script", "task.T9.script"] (configOf [taskT2] []))
            = some (s1, r) ∧
        (r = none → ∀ f ∈ s1.agentsDir, matchTaskScript f = true →
          f = scriptName (scriptTaskId f) ∧
            (scriptTaskId f ∈ enabledTaskIds (configOf [taskT2] []).Apps
              ∨ libOk.fileDelete f = false)) :=
  ⟨by decide,
    (scheduleTasks_orphans libOk
      (agentWithFiles ["task.T1.script", "task.T9.script"] (configOf [taskT2] []))
      (configOf [taskT2] []) rfl).elim
      (fun s1 h => h.elim (fun r hr => ⟨s1, r, hr.1, hr.2.1⟩))⟩

/-! ## Versions and schedules through the first loop -/

theorem runTasks_cons_ok (x : Lib) (q : String × TaskConfig) (rest : List (String × TaskConfig))
    (st : Agent × List String) (hok : (runTasks x (q :: rest) st).2 = none) :
    ∃ st1, scheduleTask x q.1 q.2 st = (st1, none) ∧
      runTasks x (q :: rest) st = runTasks x rest st1 := by
  simp only [runTasks] at hok ⊢
  rcases hres : scheduleTask x q.1 q.2 st with ⟨st1, _ | err⟩
  · exact ⟨st1, rfl, rfl⟩
  · rw [hres] at hok
    simp at hok

theorem scheduleTask_keeps_entry (x : Lib) (a : String) (t : TaskConfig)
    (st : Agent × List String) (hon : t.On = true) (id : String) (e : Task)
    (hget : mapGet st.1.runningTasks id = some e)
    (hsame : t.Id = id → t.Version = e.config.Version) :
    mapGet (scheduleTask x a t st).1.1.runningTasks id = some e := by
  obtain ⟨_, _, _, hc⟩ := scheduleTask_cases x a t st hon
  by_cases hid : t.Id = id
  · have hv := hsame hid
    rw [← hid] at hget
    rcases hc with ⟨rt, _, _, h⟩ | ⟨rt, hg, hne, _⟩ | ⟨rt, hg, hne, _⟩ | ⟨hg, _⟩ | ⟨hg, _⟩
    · rw [h, ← hid]
      exact hget
    · rw [hget] at hg
      exact absurd (by rw [← Option.some.inj hg]; exact hv.symm) hne
    · rw [hget] at hg
      exact absurd (by rw [← Option.some.inj hg]; exact hv.symm) hne
    · rw [hget] at hg
      exact absurd hg (by simp)
    · rw [hget] at hg
      exact absurd hg (by simp)
  · have hid1 : id ≠ t.Id := fun h => hid h.symm
    rcases hc with ⟨rt, _, _, h⟩ | ⟨rt, _, _, _, h, _⟩ | ⟨rt, _, _, _, h, _⟩ | ⟨_, _, h, _⟩ |
      ⟨_, _, h, _⟩
    · rw [h]; exact hget
    · rw [h, mapGet_mapSet_ne _ _ _ _ hid1]; exact hget
    · rw [h]; exact hget
    · rw [h, mapGet_mapSet_ne _ _ _ _ hid1]; exact hget
    · rw [h]; exact hget

theorem scheduleTask_sets_version (x : Lib) (a : String) (t : TaskConfig)
    (st : Agent × List String) (hon : t.On = true) (hs : 0 < t.Schedule.length) :
    ∃ e, mapGet (scheduleTask x a t st).1.1.runningTasks t.Id = some e ∧
      e.config.Version = t.Version := by
  obtain ⟨_, _, _, hc⟩ := scheduleTask_cases x a t st hon
  rcases hc with ⟨rt, hg, hv, h⟩ | ⟨rt, _, _, _, h, _⟩ | ⟨rt, _, _, h0, _⟩ | ⟨_, _, h, _⟩ |
    ⟨_, h0, _⟩
  · rw [h]
    exact ⟨rt, hg, hv⟩
  · rw [h, mapGet_mapSet_self]
    exact ⟨_, rfl, rfl⟩
  · omega
  · rw [h, mapGet_mapSet_self]
    exact ⟨_, rfl, rfl⟩
  · omega

theorem runTasks_keeps_version (x : Lib) (l : List (String × TaskConfig))
    (hon : ∀ p ∈ l, p.2.On = true) (st : Agent × List String) (id : String) (v : Nat)
    (hsame : ∀ q ∈ l, q.2.Id = id → q.2.Version = v)
    (h : ∃ e, mapGet st.1.runningTasks id = some e ∧ e.config.Version = v) :
    ∃ e, mapGet (runTasks x l st).1.1.runningTasks id = some e ∧ e.config.Version = v := by
  refine runTasks_invariant x
    (fun st1 => ∃ e, mapGet st1.1.runningTasks id = some e ∧ e.config.Version = v) l ?_ st h
  intro q hq st1 ⟨e, h1, h2⟩
  refine ⟨e, scheduleTask_keeps_entry x q.1 q.2 st1 (hon q hq) id e h1 ?_, h2⟩
  intro hid
  rw [h2]
  exact hsame q hq hid

theorem runTasks_version (x : Lib) (l : List (String × TaskConfig))
    (hon : ∀ p ∈ l, p.2.On = true) (st : Agent × List String) (p : String × TaskConfig)
    (hp : p ∈ l) (hs : 0 < p.2.Schedule.length)
    (hsame : ∀ q ∈ l, q.2.Id = p.2.Id → q.2.Version = p.2.Version)
    (hok : (runTasks x l st).2 = none) :
    ∃ e, mapGet (runTasks x l st).1.1.runningTasks p.2.Id = some e ∧
      e.config.Version = p.2.Version := by
  induction l generalizing st with
  | nil => simp at hp
  | cons q rest ih =>
    obtain ⟨st1, hstep, hrun⟩ := runTasks_cons_ok x q rest st hok
    have hon1 : ∀ p ∈ rest, p.2.On = true := fun r hr => hon r (List.mem_cons_of_mem _ hr)
    have hsame1 : ∀ r ∈ rest, r.2.Id = p.2.Id → r.2.Version = p.2.Version :=
      fun r hr => hsame r (List.mem_cons_of_mem _ hr)
    rw [hrun] at hok ⊢
    rcases List.mem_cons.mp hp with heq | hmem
    · have h1 := scheduleTask_sets_version x q.1 q.2 st (hon q (List.mem_cons_self _ _))
        (heq ▸ hs)
      rw [hstep, ← heq] at h1
      exact runTasks_keeps_version x rest hon1 st1 p.2.Id p.2.Version hsame1 h1
    · exact ih hon1 st1 hmem hsame1 hok

theorem runTasks_new_keys (x : Lib) (l : List (String × TaskConfig))
    (hon : ∀ p ∈ l, p.2.On = true) (st : Agent × List String) (k : String) (e : Task)
    (h : mapGet (runTasks x l st).1.1.runningTasks k = some e) :
    (∃ e0, mapGet st.1.runningTasks k = some e0) ∨
      ∃ p ∈ l, p.2.Id = k ∧ 0 < p.2.Schedule.length := by
  have hinv := runTasks_invariant x
    (fun st1 => ∀ e1, mapGet st1.1.runningTasks k = some e1 →
      (∃ e0, mapGet st.1.runningTasks k = some e0) ∨
        ∃ p ∈ l, p.2.Id = k ∧ 0 < p.2.Schedule.length) l ?_ st (fun e1 h1 => Or.inl ⟨e1, h1⟩)
  · exact hinv e h
  · intro q hq st1 hP e1 h1
    obtain ⟨_, _, _, hc⟩ := scheduleTask_cases x q.1 q.2 st1 (hon q hq)
    by_cases hid : q.2.Id = k
    · rcases hc with ⟨rt, hg, _, _⟩ | ⟨rt, hg, _, _⟩ | ⟨rt, hg, _, _⟩ | ⟨_, hs, _⟩ |
        ⟨_, _, hr, _⟩
      · exact hP rt (hid ▸ hg)
      · exact hP rt (hid ▸ hg)
      · exact hP rt (hid ▸ hg)
      · exact Or.inr ⟨q, hq, hid, hs⟩
      · rw [hr] at h1
        exact hP e1 h1
    · have hid1 : k ≠ q.2.Id := fun h => hid h.symm
      rcases hc with ⟨rt, _, _, hr⟩ | ⟨rt, _, _, _, hr, _⟩ | ⟨rt, _, _, _, hr, _⟩ |
        ⟨_, _, hr, _⟩ | ⟨_, _, hr, _⟩
      · rw [hr] at h1; exact hP e1 h1
      · rw [hr, mapGet_mapSet_ne _ _ _ _ hid1] at h1; exact hP e1 h1
      · rw [hr] at h1; exact hP e1 h1
      · rw [hr, mapGet_mapSet_ne _ _ _ _ hid1] at h1; exact hP e1 h1
      · rw [hr] at h1; exact hP e1 h1

theorem scheduleTask_count_mono (x : Lib) (a : String) (t : TaskConfig)
    (st : Agent × List String) (hon : t.On = true) (ef : Effect) :
    st.1.trace.count ef ≤ (scheduleTask x a t st).1.1.trace.count ef := by
  obtain ⟨_, _, _, hc⟩ := scheduleTask_cases x a t st hon
  rcases hc with ⟨rt, _, _, h⟩ | ⟨rt, _, _, _, _, _, h⟩ | ⟨rt, _, _, _, _, _, h⟩ |
    ⟨_, _, _, _, h⟩ | ⟨_, _, _, _, h⟩
  · rw [h]
  all_goals
    rw [h]
    exact count_append_le _ _ _

theorem scheduleTask_stops_changed (x : Lib) (a : String) (t : TaskConfig)
    (st : Agent × List String) (hon : t.On = true) (e : Task)
    (hget : mapGet st.1.runningTasks t.Id = some e) (hv : t.Version ≠ e.config.Version) :
    st.1.trace.count (Effect.taskStop e.uid)
      < (scheduleTask x a t st).1.1.trace.count (Effect.taskStop e.uid) := by
  obtain ⟨_, _, _, hc⟩ := scheduleTask_cases x a t st hon
  rcases hc with ⟨rt, hg, hvv, _⟩ | ⟨rt, hg, _, _, _, _, h⟩ | ⟨rt, hg, _, _, _, _, h⟩ |
    ⟨hg, _⟩ | ⟨hg, _⟩
  · rw [hget] at hg
    exact absurd (by rw [Option.some.inj hg]; exact hvv.symm) hv
  · rw [hget] at hg
    rw [h, ← Option.some.inj hg]
    simp [List.count_append, List.count_cons]
  · rw [hget] at hg
    rw [h, ← Option.some.inj hg]
    simp [List.count_append, List.count_cons]
  · rw [hget] at hg
    exact absurd hg (by simp)
  · rw [hget] at hg
    exact absurd hg (by simp)

theorem runTasks_stops_changed (x : Lib) (l : List (String × TaskConfig))
    (hon : ∀ p ∈ l, p.2.On = true) (st : Agent × List String) (id : String) (e : Task)
    (hget : mapGet st.1.runningTasks id = some e)
    (hex : ∃ p ∈ l, p.2.Id = id ∧ p.2.Version ≠ e.config.Version)
    (hok : (runTasks x l st).2 = none) :
    st.1.trace.count (Effect.taskStop e.uid)
      < (runTasks x l st).1.1.trace.count (Effect.taskStop e.uid) := by
  induction l generalizing st with
  | nil =>
    obtain ⟨p, hp, _⟩ := hex
    simp at hp
  | cons q rest ih =>
    obtain ⟨st1, hstep, hrun⟩ := runTasks_cons_ok x q rest st hok
    have hon1 : ∀ p ∈ rest, p.2.On = true := fun r hr => hon r (List.mem_cons_of_mem _ hr)
    have honq := hon q (List.mem_cons_self _ _)
    rw [hrun] at hok ⊢
    by_cases hq : q.2.Id = id ∧ q.2.Version ≠ e.config.Version
    · have h1 := scheduleTask_stops_changed x q.1 q.2 st honq e (hq.1 ▸ hget) hq.2
      rw [hstep] at h1
      exact lt_of_lt_of_le h1 (runTasks_count_mono x rest hon1 _ st1)
    · have hkeep := scheduleTask_keeps_entry x q.1 q.2 st honq id e hget
        (fun hid => by
          by_contra hne
          exact hq ⟨hid, hne⟩)
      have hmono := scheduleTask_count_mono x q.1 q.2 st honq (Effect.taskStop e.uid)
      rw [hstep] at hkeep hmono
      have hex1 : ∃ p ∈ rest, p.2.Id = id ∧ p.2.Version ≠ e.config.Version := by
        obtain ⟨p, hp, hpid, hpv⟩ := hex
        rcases List.mem_cons.mp hp with heq | hmem
        · exact absurd ⟨heq ▸ hpid, heq ▸ hpv⟩ hq
        · exact ⟨p, hmem, hpid, hpv⟩
      exact lt_of_le_of_lt hmono (ih hon1 st1 hkeep hex1 hok)

/-! ## Versions and the desired set after `scheduleTasks` -/

/-- Counterexample to C3 as stated: `T1` runs at version 1 and the installed config lists it
enabled at version 2 with an empty schedule. `scheduleTasks` returns nil, and `runningTasks`
still holds the (stopped) executor of `T1` with the config of version 1. -/
theorem scheduleTasks_version_counterexample :
    enabledTasks (configOf [taskT1v2Unscheduled] []).Apps = [("app1", taskT1v2Unscheduled)] ∧
      taskT1v2Unscheduled.Version = 2 ∧
      (scheduleTasks libOk (agentRunningT1 (configOf [taskT1v2Unscheduled] []))).map
          (fun r => (r.2, (mapGet r.1.runningTasks "T1").map (fun e => e.config.Version)))
        = some (none, some 1) := by
  decide

/-- C3, amended. `scheduleTasks` returns, and if it returns without error then every executor
in `runningTasks` whose id belongs to an enabled task of an enabled app with a non-empty
schedule has the version of that task, the config giving one version for the id. -/
theorem scheduleTasks_version (x : Lib) (s : Agent) (agent : AgentConfig)
    (hcfg : s.runningAgent = some agent) :
    ∃ s1 r, scheduleTasks x s = some (s1, r) ∧
      (r = none → ∀ id e, mapGet s1.runningTasks id = some e →
        ∀ p ∈ enabledTasks agent.Apps, p.2.Id = id → 0 < p.2.Schedule.length →
          (∀ q ∈ enabledTasks agent.Apps, q.2.Id = id → q.2.Version = p.2.Version) →
            e.config.Version = p.2.Version) := by
  have hon := enabledTasks_on agent.Apps
  rw [scheduleTasks_run x s agent hcfg]
  rcases hres : runTasks x (enabledTasks agent.Apps) (s.emit Effect.enterScheduleTasks, [])
    with ⟨st, _ | err⟩
  · refine ⟨_, none, rfl, fun _ id e hget p hp hid hs huniq => ?_⟩
    obtain ⟨_, _, c3, _⟩ := cleanScripts_spec x st.2
      (stopAbsentTasks st.2 st.1.runningTasks st.1).agentsDir
      (stopAbsentTasks st.2 st.1.runningTasks st.1)
    rw [c3, stopAbsentTasks_get] at hget
    have hget1 : mapGet st.1.runningTasks id = some e := by
      by_cases hin : id ∈ st.2
      · rwa [if_pos hin] at hget
      · rw [if_neg hin] at hget
        exact absurd hget (by simp)
    have hv := runTasks_version x (enabledTasks agent.Apps) hon
      (s.emit Effect.enterScheduleTasks, []) p hp hs (fun q hq h => huniq q hq (h.trans hid))
    rw [hres] at hv
    obtain ⟨e1, h1, h2⟩ := hv rfl
    rw [hid, hget1] at h1
    rw [Option.some.inj h1]
    exact h2
  · exact ⟨_, some err, rfl, fun h => absurd h (by simp)⟩

/-- Witness of `scheduleTasks_version`: `T1` runs at version 1 and the config lists it at
version 2 with a schedule. -/
theorem scheduleTasks_version_witness :
    (scheduleTasks libOk (agentRunningT1 (configOf [taskT1v2] []))).map
          (fun r => (r.2, (mapGet r.1.runningTasks "T1").map (fun e => e.config.Version)))
        = some (none, some 2) ∧
      ∃ s1 r, scheduleTasks libOk (agentRunningT1 (configOf [taskT1v2] [])) = some (s1, r) ∧
        (r = none → ∀ id e, mapGet s1.runningTasks id = some e →
          ∀ p ∈ enabledTasks (configOf [taskT1v2] []).Apps, p.2.Id = id →
            0 < p.2.Schedule.length →
            (∀ q ∈ enabledTasks (configOf [taskT1v2] []).Apps, q.2.Id = id →
              q.2.Version = p.2.Version) →
              e.config.Version = p.2.Version) :=
  ⟨by decide,
    scheduleTasks_version libOk (agentRunningT1 (configOf [taskT1v2] []))
      (configOf [taskT1v2] []) rfl⟩

/-- Counterexample to C5 as stated. (1) `T1` runs at version 1 and the new config lists it
enabled at version 2 without a schedule: after `scheduleTasks` has returned nil, `T1` is
outside the desired set and still a key of `runningTasks`, with one `Stop` recorded.
(2) The same with the version unchanged: `T1` is still a key and was not even stopped.
(3) When `GenerateAgain` fails for another task, `scheduleTasks` returns early and `T1`,
which the config does not list at all, is still a key. -/
theorem scheduleTasks_desired_counterexample :
    ("T1" ∉ desiredTaskIds (configOf [taskT1v2Unscheduled] []).Apps ∧
      (scheduleTasks libOk (agentRunningT1 (configOf [taskT1v2Unscheduled] []))).map
          (fun r => (r.2, mapGet r.1.runningTasks "T1",
            r.1.trace.count (Effect.taskStop execT1.uid)))
        = some (none, some execT1, 1)) ∧
    ("T1" ∉ desiredTaskIds (configOf [taskT1v1Unscheduled] []).Apps ∧
      (scheduleTasks libOk (agentRunningT1 (configOf [taskT1v1Unscheduled] []))).map
          (fun r => (r.2, mapGet r.1.runningTasks "T1",
            r.1.trace.count (Effect.taskStop execT1.uid)))
        = some (none, some execT1, 0)) ∧
    ("T1" ∉ enabledTaskIds (configOf [taskT2] []).Apps ∧
      (scheduleTasks libGenerateFails (agentRunningT1 (configOf [taskT2] []))).map
          (fun r => (r.2, mapGet r.1.runningTasks "T1"))
        = some (some "disk full", some execT1)) := by
  decide

/-- C5, amended. `scheduleTasks` returns, and if it returns without error then every id in
`runningTasks` is the id of an enabled task of an enabled app of the new config; an id that
was not running before is, in addition, the id of such a task with a non-empty schedule; and
a previously running executor for whose id the config lists an enabled task with another
version (with or without a schedule) has had `Stop` called on it. -/
theorem scheduleTasks_desired (x : Lib) (s : Agent) (agent : AgentConfig)
    (hcfg : s.runningAgent = some agent) :
    ∃ s1 r, scheduleTasks x s = some (s1, r) ∧
      (r = none →
        (∀ id e, mapGet s1.runningTasks id = some e →
          id ∈ enabledTaskIds agent.Apps ∧
            (mapGet s.runningTasks id = none → id ∈ desiredTaskIds agent.Apps)) ∧
        (∀ id e, mapGet s.runningTasks id = some e →
          (∃ p ∈ enabledTasks agent.Apps, p.2.Id = id ∧ p.2.Version ≠ e.config.Version) →
            s.trace.count (Effect.taskStop e.uid) < s1.trace.count (Effect.taskStop e.uid))) := by
  have hon := enabledTasks_on agent.Apps
  have hids := runTasks_ids x (enabledTasks agent.Apps) hon (s.emit Effect.enterScheduleTasks, [])
  rw [scheduleTasks_run x s agent hcfg]
  rcases hres : runTasks x (enabledTasks agent.Apps) (s.emit Effect.enterScheduleTasks, [])
    with ⟨st, _ | err⟩
  · rw [hres] at hids
    have hids1 : st.2 = enabledTaskIds agent.Apps := by
      simpa [enabledTaskIds] using hids rfl
    obtain ⟨_, _, c3, _, ⟨es, c5, _⟩, _, _⟩ := cleanScripts_spec x st.2
      (stopAbsentTasks st.2 st.1.runningTasks st.1).agentsDir
      (stopAbsentTasks st.2 st.1.runningTasks st.1)
    have d5 := (stopAbsentTasks_spec st.2 st.1.runningTasks st.1).2.2.2.2.1
    refine ⟨_, none, rfl, fun _ => ⟨fun id e hget => ?_, fun id e hget hex => ?_⟩⟩
    · rw [c3, stopAbsentTasks_get] at hget
      by_cases hin : id ∈ st.2
      · rw [if_pos hin] at hget
        refine ⟨hids1 ▸ hin, fun hnone => ?_⟩
        have hnew := runTasks_new_keys x (enabledTasks agent.Apps) hon
          (s.emit Effect.enterScheduleTasks, []) id e (by rw [hres]; exact hget)
        rcases hnew with ⟨e0, h0⟩ | ⟨p, hp, hpid, hps⟩
        · have h0a : mapGet s.runningTasks id = some e0 := h0
          rw [hnone] at h0a
          exact absurd h0a (by simp)
        · simp only [desiredTaskIds, List.mem_map, List.mem_filter, decide_eq_true_eq]
          exact ⟨p, ⟨hp, hps⟩, hpid⟩
      · rw [if_neg hin] at hget
        exact absurd hget (by simp)
    · have h1 := runTasks_stops_changed x (enabledTasks agent.Apps) hon
        (s.emit Effect.enterScheduleTasks, []) id e hget hex (by rw [hres])
      rw [hres, count_emit_ne s _ _ (by simp)] at h1
      rw [c5, d5]
      exact lt_of_lt_of_le h1
        (le_trans (count_append_le _ _ _) (count_append_le _ _ _))
  · exact ⟨_, some err, rfl, fun h => absurd h (by simp)⟩

/-- Witness of `scheduleTasks_desired`: `T1` runs at version 1, the config lists it at
version 2 and adds `T2`. -/
theorem scheduleTasks_desired_witness :
    (scheduleTasks libOk (agentRunningT1 (configOf [taskT1v2, taskT2] []))).map
          (fun r => (r.2, r.1.runningTasks.map Prod.fst))
        = some (none, ["T1", "T2"]) ∧
      ∃ s1 r, scheduleTasks libOk (agentRunningT1 (configOf [taskT1v2, taskT2] []))
          = some (s1, r) ∧
        (r = none →
          (∀ id e, mapGet s1.runningTasks id = some e →
            id ∈ enabledTaskIds (configOf [taskT1v2, taskT2] []).Apps ∧
              (mapGet (agentRunningT1 (configOf [taskT1v2, taskT2] [])).runningTasks id = none →
                id ∈ desiredTaskIds (configOf [taskT1v2, taskT2] []).Apps)) ∧
          (∀ id e, mapGet (agentRunningT1 (configOf [taskT1v2, taskT2] [])).runningTasks id
              = some e →
            (∃ p ∈ enabledTasks (configOf [taskT1v2, taskT2] []).Apps,
              p.2.Id = id ∧ p.2.Version ≠ e.config.Version) →
              (agentRunningT1 (configOf [taskT1v2, taskT2] [])).trace.count
                  (Effect.taskStop e.uid)
                < s1.trace.count (Effect.taskStop e.uid))) :=
  ⟨by decide,
    scheduleTasks_desired libOk (agentRunningT1 (configOf [taskT1v2, taskT2] []))
      (configOf [taskT1v2, taskT2] []) rfl⟩

/-! ## `scheduleItems` -/

theorem enabledItems_on (apps : List AppConfig) :
    ∀ p ∈ enabledItems apps, p.2.On = true := by
  induction apps with
  | nil => simp [enabledItems]
  | cons app rest ih =>
    intro p hp
    unfold enabledItems at hp
    by_cases h : app.On = false
    · rw [if_pos h] at hp
      exact ih p hp
    · rw [if_neg h, List.mem_append] at hp
      rcases hp with h1 | h1
      · simp only [List.mem_map, List.mem_filter] at h1
        obtain ⟨t, ⟨_, ht⟩, rfl⟩ := h1
        exact ht
      · exact ih p h1

theorem runItems_append (l1 l2 : List (String × ItemConfig)) (st : Agent × List String) :
    runItems (l1 ++ l2) st = runItems l2 (runItems l1 st) := by
  induction l1 generalizing st with
  | nil => rfl
  | cons p rest ih => exact ih (scheduleItem p.1 p.2 st)

theorem scheduleAppItems_eq (a : String) (is : List ItemConfig) (st : Agent × List String) :
    scheduleAppItems a is st
      = runItems ((is.filter (fun i => i.On)).map (fun i => (a, i))) st := by
  induction is generalizing st with
  | nil => simp [scheduleAppItems, runItems]
  | cons i rest ih =>
    by_cases h : i.On = true
    · simp only [scheduleAppItems, List.filter_cons, h, if_true, List.map_cons, runItems]
      exact ih _
    · have h0 : i.On = false := by simpa using h
      have hskip : scheduleItem a i st = st := by simp [scheduleItem, h0]
      simp only [scheduleAppItems, hskip, List.filter_cons, h0]
      simpa using ih st

theorem scheduleItemApps_eq (apps : List AppConfig) (st : Agent × List String) :
    scheduleItemApps apps st = runItems (enabledItems apps) st := by
  induction apps generalizing st with
  | nil => simp [scheduleItemApps, enabledItems, runItems]
  | cons app rest ih =>
    by_cases h : app.On = false
    · simp only [scheduleItemApps, enabledItems, if_pos h]
      exact ih st
    · simp only [scheduleItemApps, enabledItems, if_neg h, runItems_append, scheduleAppItems_eq]
      exact ih _

/-- What one step of the first loop of `scheduleItems` does for an enabled item: a fresh
executor replaces the entry, after a `Stop` of the executor held before, if any. -/
theorem scheduleItem_on (a : String) (i : ItemConfig) (st : Agent × List String)
    (hon : i.On = true) :
    (scheduleItem a i st).2 = st.2 ++ [i.Id] ∧
      SameGlobals st.1 (scheduleItem a i st).1 ∧
      (scheduleItem a i st).1.runningTasks = st.1.runningTasks ∧
      (scheduleItem a i st).1.agentsDir = st.1.agentsDir ∧
      (scheduleItem a i st).1.nextUid = st.1.nextUid + 1 ∧
      (scheduleItem a i st).1.runningItems
        = mapSet st.1.runningItems i.Id (NewItem st.1.nextUid a i) ∧
      ((∃ r, mapGet st.1.runningItems i.Id = some r ∧
          (scheduleItem a i st).1.trace
            = st.1.trace ++ [Effect.itemStop r.uid, Effect.itemSchedule st.1.nextUid]) ∨
        (mapGet st.1.runningItems i.Id = none ∧
          (scheduleItem a i st).1.trace
            = st.1.trace ++ [Effect.itemSchedule st.1.nextUid])) := by
  rcases hget : mapGet st.1.runningItems i.Id with _ | r
  · simp [scheduleItem, hon, hget, Agent.emit, SameGlobals, NewItem]
  · simp [scheduleItem, hon, hget, Agent.emit, SameGlobals, NewItem]

theorem stopAbsentItems_spec (ids : List String) (l : List (String × Item)) (s : Agent) :
    SameGlobals s (stopAbsentItems ids l s) ∧
      (stopAbsentItems ids l s).runningTasks = s.runningTasks ∧
      (stopAbsentItems ids l s).agentsDir = s.agentsDir ∧
      (stopAbsentItems ids l s).nextUid = s.nextUid ∧
      (stopAbsentItems ids l s).trace = s.trace ++
        (l.filter (fun p => decide (p.1 ∉ ids))).map (fun p => Effect.itemStop p.2.uid) ∧
      (stopAbsentItems ids l s).runningItems
        = s.runningItems.filter (fun p => decide (p.1 ∈ ids ∨ p.1 ∉ l.map Prod.fst)) := by
  induction l generalizing s with
  | nil => simp [stopAbsentItems, SameGlobals.refl]
  | cons q rest ih =>
    obtain ⟨k, rt⟩ := q
    by_cases hk : k ∈ ids
    · have e : stopAbsentItems ids ((k, rt) :: rest) s = stopAbsentItems ids rest s := by
        simp [stopAbsentItems, hk]
      rw [e]
      obtain ⟨h1, h2, h3, h4, h5, h6⟩ := ih s
      refine ⟨h1, h2, h3, h4, ?_, ?_⟩
      · rw [h5]
        simp [List.filter_cons, hk]
      · rw [h6]
        apply List.filter_congr
        intro p _
        by_cases hp : p.1 = k
        · simp [hp, hk]
        · have hb : (p.1 == k) = false := by simpa using hp
          simp [hp, hb]
    · have e : stopAbsentItems ids ((k, rt) :: rest) s = stopAbsentItems ids rest
          { s.emit (Effect.itemStop rt.uid) with
            runningItems := mapDelete (s.emit (Effect.itemStop rt.uid)).runningItems k } := by
        simp [stopAbsentItems, hk]
      rw [e]
      obtain ⟨h1, h2, h3, h4, h5, h6⟩ := ih
        { s.emit (Effect.itemStop rt.uid) with
          runningItems := mapDelete (s.emit (Effect.itemStop rt.uid)).runningItems k }
      refine ⟨h1, h2, h3, h4, ?_, ?_⟩
      · rw [h5]
        simp [List.filter_cons, hk, Agent.emit]
      · rw [h6]
        simp only [Agent.emit, mapDelete, List.filter_filter]
        apply List.filter_congr
        intro p _
        by_cases hp : p.1 = k
        · simp [hp, hk]
        · have hb : (p.1 == k) = false := by simpa using hp
          simp [hp, hb]

theorem stopAbsentItems_get (ids : List String) (s : Agent) (k : String) :
    mapGet (stopAbsentItems ids s.runningItems s).runningItems k
      = if k ∈ ids then mapGet s.runningItems k else none := by
  have h := (stopAbsentItems_spec ids s.runningItems s).2.2.2.2.2
  have h1 : s.runningItems.filter
        (fun p => decide (p.1 ∈ ids ∨ p.1 ∉ s.runningItems.map Prod.fst))
      = s.runningItems.filter (fun p => (fun k1 => decide (k1 ∈ ids)) p.1) := by
    apply List.filter_congr
    intro p hp
    have : p.1 ∈ s.runningItems.map Prod.fst := List.mem_map_of_mem _ hp
    simp [this]
  rw [h, h1]
  exact (mapGet_filter_key s.runningItems (fun k1 => decide (k1 ∈ ids)) k).trans (by simp)

theorem scheduleItems_run (s : Agent) (agent : AgentConfig) (h : s.runningAgent = some agent) :
    scheduleItems s = some
      (stopAbsentItems (runItems (enabledItems agent.Apps) (s.emit Effect.enterScheduleItems, [])).2
        (runItems (enabledItems agent.Apps)
          (s.emit Effect.enterScheduleItems, [])).1.runningItems
        (runItems (enabledItems agent.Apps) (s.emit Effect.enterScheduleItems, [])).1, none) := by
  simp only [scheduleItems, h, scheduleItemApps_eq]

theorem scheduleItem_count_mono (a : String) (i : ItemConfig) (st : Agent × List String)
    (hon : i.On = true) (ef : Effect) :
    st.1.trace.count ef ≤ (scheduleItem a i st).1.trace.count ef := by
  obtain ⟨_, _, _, _, _, _, hc⟩ := scheduleItem_on a i st hon
  rcases hc with ⟨r, _, h⟩ | ⟨_, h⟩ <;>
    · rw [h]
      exact count_append_le _ _ _

theorem runItems_basic (l : List (String × ItemConfig)) (hon : ∀ p ∈ l, p.2.On = true)
    (st : Agent × List String) :
    (runItems l st).2 = st.2 ++ l.map (fun p => p.2.Id) ∧
      st.1.nextUid ≤ (runItems l st).1.nextUid ∧
      SameGlobals st.1 (runItems l st).1 ∧
      (runItems l st).1.runningTasks = st.1.runningTasks ∧
      (runItems l st).1.agentsDir = st.1.agentsDir ∧
      (∀ ef, st.1.trace.count ef ≤ (runItems l st).1.trace.count ef) ∧
      (∀ k, k ∉ l.map (fun p => p.2.Id) →
        mapGet (runItems l st).1.runningItems k = mapGet st.1.runningItems k) := by
  induction l generalizing st with
  | nil => simp [runItems, SameGlobals.refl]
  | cons q rest ih =>
    have honq := hon q (List.mem_cons_self _ _)
    obtain ⟨s1, s2, s3, s4, s5, s6, _⟩ := scheduleItem_on q.1 q.2 st honq
    obtain ⟨h1, h2, h3, h4, h5, h6, h7⟩ :=
      ih (fun p hp => hon p (List.mem_cons_of_mem _ hp)) (scheduleItem q.1 q.2 st)
    simp only [runItems]
    refine ⟨?_, ?_, s2.trans h3, h4.trans s3, h5.trans s4, ?_, ?_⟩
    · rw [h1, s1]
      simp
    · omega
    · intro ef
      exact le_trans (scheduleItem_count_mono q.1 q.2 st honq ef) (h6 ef)
    · intro k hk
      simp only [List.map_cons, List.mem_cons, not_or] at hk
      rw [h7 k hk.2, s6, mapGet_mapSet_ne _ _ _ _ hk.1]

theorem runItems_fresh (l : List (String × ItemConfig)) (hon : ∀ p ∈ l, p.2.On = true)
    (st : Agent × List String) (k : String) (hk : k ∈ l.map (fun p => p.2.Id)) :
    ∃ it, mapGet (runItems l st).1.runningItems k = some it ∧
      st.1.nextUid ≤ it.uid ∧ it.uid < (runItems l st).1.nextUid ∧
      st.1.trace.count (Effect.itemSchedule it.uid)
        < (runItems l st).1.trace.count (Effect.itemSchedule it.uid) ∧
      ∃ p ∈ l, p.2.Id = k ∧ it.config = p.2 ∧ it.appId = p.1 := by
  induction l generalizing st with
  | nil => simp at hk
  | cons q rest ih =>
    have honq := hon q (List.mem_cons_self _ _)
    have hon1 : ∀ p ∈ rest, p.2.On = true := fun p hp => hon p (List.mem_cons_of_mem _ hp)
    obtain ⟨_, _, _, _, s5, s6, s7⟩ := scheduleItem_on q.1 q.2 st honq
    obtain ⟨_, b2, _, _, _, b6, b7⟩ := runItems_basic rest hon1 (scheduleItem q.1 q.2 st)
    simp only [runItems]
    by_cases hin : k ∈ rest.map (fun p => p.2.Id)
    · obtain ⟨it, g1, g2, g3, g4, p, hp, g5⟩ := ih hon1 (scheduleItem q.1 q.2 st) hin
      refine ⟨it, g1, by omega, g3, ?_, p, List.mem_cons_of_mem _ hp, g5⟩
      exact lt_of_le_of_lt (scheduleItem_count_mono q.1 q.2 st honq _) g4
    · have hkq : k = q.2.Id := by
        simp only [List.map_cons, List.mem_cons] at hk
        rcases hk with h | h
        · exact h
        · exact absurd h hin
      refine ⟨NewItem st.1.nextUid q.1 q.2, ?_, le_refl _, ?_, ?_, q, List.mem_cons_self _ _,
        hkq.symm, rfl, rfl⟩
      · rw [b7 k hin, s6, hkq, mapGet_mapSet_self]
      · show st.1.nextUid < _
        omega
      · refine lt_of_lt_of_le ?_ (b6 _)
        show st.1.trace.count (Effect.itemSchedule st.1.nextUid) < _
        rcases s7 with ⟨r, _, h⟩ | ⟨_, h⟩ <;>
          · rw [h]
            simp [List.count_append, List.count_cons, NewItem]

theorem runItems_stops_previous (l : List (String × ItemConfig))
    (hon : ∀ p ∈ l, p.2.On = true) (st : Agent × List String) (k : String) (e : Item)
    (hget : mapGet st.1.runningItems k = some e) (hk : k ∈ l.map (fun p => p.2.Id)) :
    st.1.trace.count (Effect.itemStop e.uid)
      < (runItems l st).1.trace.count (Effect.itemStop e.uid) := by
  induction l generalizing st with
  | nil => simp at hk
  | cons q rest ih =>
    have honq := hon q (List.mem_cons_self _ _)
    have hon1 : ∀ p ∈ rest, p.2.On = true := fun p hp => hon p (List.mem_cons_of_mem _ hp)
    obtain ⟨_, _, _, _, _, s6, s7⟩ := scheduleItem_on q.1 q.2 st honq
    obtain ⟨_, _, _, _, _, b6, _⟩ := runItems_basic rest hon1 (scheduleItem q.1 q.2 st)
    simp only [runItems]
    by_cases hkq : q.2.Id = k
    · refine lt_of_lt_of_le ?_ (b6 _)
      rw [← hkq] at hget
      rcases s7 with ⟨r, hr, h⟩ | ⟨hr, _⟩
      · rw [hget] at hr
        rw [h, ← Option.some.inj hr]
        simp [List.count_append, List.count_cons]
      · rw [hget] at hr
        exact absurd hr (by simp)
    · have hin : k ∈ rest.map (fun p => p.2.Id) := by
        simp only [List.map_cons, List.mem_cons] at hk
        rcases hk with h | h
        · exact absurd h.symm hkq
        · exact h
      have hget1 : mapGet (scheduleItem q.1 q.2 st).1.runningItems k = some e := by
        rw [s6, mapGet_mapSet_ne _ _ _ _ (fun h => hkq h.symm)]
        exact hget
      exact lt_of_le_of_lt (scheduleItem_count_mono q.1 q.2 st honq _)
        (ih hon1 (scheduleItem q.1 q.2 st) hget1 hin)

/-- Counterexample to C8 as stated: item `I2` is listed under an enabled app with `on` false.
It belongs to the set the claim names, but after `scheduleItems` it is not a key of
`runningItems`: its previous executor was stopped and no new one was made. -/
theorem scheduleItems_restart_counterexample :
    "I2" ∈ listedItemIds (configOf [] [itemI1, itemI2Off]).Apps ∧
      (scheduleItems (agentRunningItems (configOf [] [itemI1, itemI2Off]))).map
          (fun r => (r.2, mapGet r.1.runningItems "I2", r.1.runningItems.map Prod.fst,
            r.1.trace))
        = some (none, none, ["I1"],
            [Effect.enterScheduleItems, Effect.itemStop 0, Effect.itemSchedule 2,
              Effect.itemStop 1]) := by
  decide

/-- C8, amended. `scheduleItems` returns nil, and afterwards: the keys of `runningItems` are
exactly the ids of the items with `on` listed under apps with `on`; each such id maps to an
executor constructed in this call (its identity was allocated during the call) from an item
config of that id, and `Schedule` was called on it in this call; `Stop` was called in this
call on every executor that was held before; and a previously running id outside that set is
no longer a key. -/
theorem scheduleItems_restart (s : Agent) (agent : AgentConfig)
    (hcfg : s.runningAgent = some agent) :
    ∃ s1, scheduleItems s = some (s1, none) ∧
      (∀ id, (∃ it, mapGet s1.runningItems id = some it) ↔ id ∈ enabledItemIds agent.Apps) ∧
      (∀ id ∈ enabledItemIds agent.Apps, ∃ it, mapGet s1.runningItems id = some it ∧
        s.nextUid ≤ it.uid ∧ it.uid < s1.nextUid ∧
        s.trace.count (Effect.itemSchedule it.uid)
          < s1.trace.count (Effect.itemSchedule it.uid) ∧
        ∃ p ∈ enabledItems agent.Apps, p.2.Id = id ∧ it.config = p.2 ∧ it.appId = p.1) ∧
      (∀ id e, mapGet s.runningItems id = some e →
        s.trace.count (Effect.itemStop e.uid) < s1.trace.count (Effect.itemStop e.uid) ∧
          (id ∉ enabledItemIds agent.Apps → mapGet s1.runningItems id = none)) := by
  have hon := enabledItems_on agent.Apps
  obtain ⟨b1, _, _, _, _, b6, b7⟩ :=
    runItems_basic (enabledItems agent.Apps) hon (s.emit Effect.enterScheduleItems, [])
  have hids : (runItems (enabledItems agent.Apps) (s.emit Effect.enterScheduleItems, [])).2
      = enabledItemIds agent.Apps := by
    simpa [enabledItemIds] using b1
  obtain ⟨_, _, _, d4, d5, _⟩ := stopAbsentItems_spec
    (runItems (enabledItems agent.Apps) (s.emit Effect.enterScheduleItems, [])).2
    (runItems (enabledItems agent.Apps) (s.emit Effect.enterScheduleItems, [])).1.runningItems
    (runItems (enabledItems agent.Apps) (s.emit Effect.enterScheduleItems, [])).1
  have hget := stopAbsentItems_get
    (runItems (enabledItems agent.Apps) (s.emit Effect.enterScheduleItems, [])).2
    (runItems (enabledItems agent.Apps) (s.emit Effect.enterScheduleItems, [])).1
  rw [hids] at hget d5 d4
  refine ⟨_, scheduleItems_run s agent hcfg, ?_, ?_, ?_⟩
  · intro id
    rw [hids, hget]
    constructor
    · rintro ⟨it, hit⟩
      by_contra hno
      rw [if_neg hno] at hit
      exact absurd hit (by simp)
    · intro hin
      rw [if_pos hin]
      obtain ⟨it, g1, _⟩ := runItems_fresh (enabledItems agent.Apps) hon
        (s.emit Effect.enterScheduleItems, []) id hin
      exact ⟨it, g1⟩
  · intro id hin
    obtain ⟨it, g1, g2, g3, g4, g5⟩ := runItems_fresh (enabledItems agent.Apps) hon
      (s.emit Effect.enterScheduleItems, []) id hin
    rw [count_emit_ne s _ _ (by simp)] at g4
    refine ⟨it, ?_, g2, ?_, ?_, g5⟩
    · rw [hids, hget, if_pos hin]
      exact g1
    · rw [hids, d4]
      exact g3
    · rw [hids, d5]
      exact lt_of_lt_of_le g4 (count_append_le _ _ _)
  · intro id e hrun
    rw [hids, hget, d5]
    by_cases hin : id ∈ enabledItemIds agent.Apps
    · refine ⟨?_, fun h => absurd hin h⟩
      have h1 := runItems_stops_previous (enabledItems agent.Apps) hon
        (s.emit Effect.enterScheduleItems, []) id e hrun hin
      rw [count_emit_ne s _ _ (by simp)] at h1
      exact lt_of_lt_of_le h1 (count_append_le _ _ _)
    · refine ⟨?_, fun _ => by rw [if_neg hin]⟩
      have h1 : mapGet (runItems (enabledItems agent.Apps)
          (s.emit Effect.enterScheduleItems, [])).1.runningItems id = some e := by
        rw [b7 id hin]
        exact hrun
      have h2 := b6 (Effect.itemStop e.uid)
      rw [count_emit_ne s _ _ (by simp)] at h2
      rw [List.count_append]
      have h3 : 0 < ((List.filter (fun p => decide (p.1 ∉ enabledItemIds agent.Apps))
          (runItems (enabledItems agent.Apps)
            (s.emit Effect.enterScheduleItems, [])).1.runningItems).map
          (fun p => Effect.itemStop p.2.uid)).count (Effect.itemStop e.uid) := by
        apply List.count_pos_iff.mpr
        apply List.mem_map.mpr
        refine ⟨(id, e), ?_, rfl⟩
        rw [List.mem_filter]
        exact ⟨mem_of_mapGet _ _ _ h1, by simpa using hin⟩
      omega

/-- Witness of `scheduleItems_restart`: `I1` and `I2` run, the config lists `I1` enabled and
`I2` disabled. -/
theorem scheduleItems_restart_witness :
    ∃ s1, scheduleItems (agentRunningItems (configOf [] [itemI1, itemI2Off])) = some (s1, none) ∧
      (∀ id, (∃ it, mapGet s1.runningItems id = some it)
        ↔ id ∈ enabledItemIds (configOf [] [itemI1, itemI2Off]).Apps) :=
  (scheduleItems_restart (agentRunningItems (configOf [] [itemI1, itemI2Off]))
    (configOf [] [itemI1, itemI2Off]) rfl).elim (fun s1 h => ⟨s1, h.1, h.2.1⟩)

/-! ## `downloadConfig` -/

theorem scheduleTasks_frame (x : Lib) (s : Agent) (agent : AgentConfig)
    (h : s.runningAgent = some agent) :
    ∃ s1 r, scheduleTasks x s = some (s1, r) ∧ SameGlobals s s1 ∧
      s1.runningItems = s.runningItems := by
  have hon := enabledTasks_on agent.Apps
  obtain ⟨f1, f2⟩ := runTasks_frame x (enabledTasks agent.Apps) hon
    (s.emit Effect.enterScheduleTasks, [])
  rw [scheduleTasks_run x s agent h]
  rcases hres : runTasks x (enabledTasks agent.Apps) (s.emit Effect.enterScheduleTasks, [])
    with ⟨st, _ | err⟩
  · rw [hres] at f1 f2
    obtain ⟨c1, c2, _⟩ := cleanScripts_spec x st.2
      (stopAbsentTasks st.2 st.1.runningTasks st.1).agentsDir
      (stopAbsentTasks st.2 st.1.runningTasks st.1)
    obtain ⟨d1, d2, _⟩ := stopAbsentTasks_spec st.2 st.1.runningTasks st.1
    exact ⟨_, none, rfl, (f1.trans d1).trans c1, (c2.trans d2).trans f2⟩
  · rw [hres] at f1 f2
    exact ⟨_, some err, rfl, f1, f2⟩

theorem scheduleItems_frame (s : Agent) (agent : AgentConfig)
    (h : s.runningAgent = some agent) :
    ∃ s1, scheduleItems s = some (s1, none) ∧ SameGlobals s s1 ∧
      s1.runningTasks = s.runningTasks ∧ s1.agentsDir = s.agentsDir := by
  obtain ⟨_, _, b3, b4, b5, _⟩ := runItems_basic (enabledItems agent.Apps)
    (enabledItems_on agent.Apps) (s.emit Effect.enterScheduleItems, [])
  obtain ⟨d1, d2, d3, _⟩ := stopAbsentItems_spec
    (runItems (enabledItems agent.Apps) (s.emit Effect.enterScheduleItems, [])).2
    (runItems (enabledItems agent.Apps) (s.emit Effect.enterScheduleItems, [])).1.runningItems
    (runItems (enabledItems agent.Apps) (s.emit Effect.enterScheduleItems, [])).1
  exact ⟨_, scheduleItems_run s agent h, b3.trans d1, d2.trans b4, d3.trans b5⟩

theorem installConfig_spec (x : Lib) (f : Fetch) (agent : AgentConfig) (s : Agent) :
    ∃ s1 r, installConfig x f agent s = some (s1, r) ∧
      (r ≠ none → s1 = s) ∧ (r = none → s1.runningAgent = some agent) := by
  unfold installConfig
  rcases hm : (if f.agentsIsDir = false then f.mkdir else none) with _ | err
  · rcases hw : f.write with _ | err
    · by_cases hb : s.isBooting = false
      · obtain ⟨s1, r1, h1, g1, _⟩ := scheduleTasks_frame x
          { s with
            agentsDir := addFile s.agentsDir ("agent." ++ agent.Id ++ ".conf")
            runningAgent := some agent
            connectId := agent.Id
            connectKey := agent.Key } agent rfl
        obtain ⟨s2, h2, g2, _⟩ := scheduleItems_frame s1 agent g1.2.2.2.1
        refine ⟨s2, none, ?_, fun h => absurd rfl h, fun _ => ?_⟩
        · rw [hb] at h1
          simp only [hb, if_true, h1, h2]
        · exact g2.2.2.2.1.trans g1.2.2.2.1
      · refine ⟨{ s with
            agentsDir := addFile s.agentsDir ("agent." ++ agent.Id ++ ".conf")
            runningAgent := some agent
            connectId := agent.Id
            connectKey := agent.Key }, none, ?_, fun h => absurd rfl h, fun _ => rfl⟩
        have hb1 : s.isBooting = true := by simpa using hb
        simp [hb1]
    · exact ⟨s, some err, rfl, fun _ => rfl, fun h => absurd h (by simp)⟩
  · exact ⟨s, some err, rfl, fun _ => rfl, fun h => absurd h (by simp)⟩

theorem decodeConfig_spec (x : Lib) (f : Fetch) (config : String) (s : Agent) :
    ∃ s1 r, decodeConfig x f config s = some (s1, r) ∧
      (r ≠ none → s1 = s) ∧
      (r = none → ∃ agent, x.yamlUnmarshal config = Except.ok agent ∧
        agent.Id.length ≠ 0 ∧ x.validate agent = none ∧ s1.runningAgent = some agent) := by
  unfold decodeConfig
  rcases hy : x.yamlUnmarshal config with err | agent
  · exact ⟨s, some err, rfl, fun _ => rfl, fun h => absurd h (by simp)⟩
  · by_cases hid : agent.Id.length = 0
    · refine ⟨s, some "invalid agent id", ?_, fun _ => rfl, fun h => absurd h (by simp)⟩
      simp only [hid, if_true]
    · rcases hv : x.validate agent with _ | err
      · obtain ⟨s1, r, h1, h2, h3⟩ := installConfig_spec x f agent s
        refine ⟨s1, r, ?_, h2, fun hr => ⟨agent, rfl, hid, hv, h3 hr⟩⟩
        simp only [hid, if_false, hv, h1]
      · refine ⟨s, some err, ?_, fun _ => rfl, fun h => absurd h (by simp)⟩
        simp only [hid, if_false, hv]

/-- C2 (config atomicity). In remote mode `downloadConfig` returns, and: if it returns an
error, the whole state is what it was before the call, so `runningAgent`, `connectConfig.Id`,
`connectConfig.Key` and both running maps are unchanged and the trace shows no entry into
`scheduleTasks` or `scheduleItems`; if it returns nil, the master answered with status 200
and envelope code 200, the fetched text decoded to a config with a non-empty id that
`Validate` accepted, and that config is `runningAgent`. -/
theorem downloadConfig_atomic (x : Lib) (f : Fetch) (s : Agent)
    (hremote : s.connectId ≠ "local") :
    ∃ s1 r, downloadConfig x f s = some (s1, r) ∧
      (r ≠ none → s1 = s) ∧
      (r = none → ∃ raw config agent,
        f.http = HttpResult.response 200 (HttpBody.envelope raw 200 (some config)) ∧
        x.yamlUnmarshal config = Except.ok agent ∧
        agent.Id.length ≠ 0 ∧ x.validate agent = none ∧ s1.runningAgent = some agent) := by
  unfold downloadConfig
  rw [if_neg hremote]
  by_cases hm : s.connectMaster.length = 0
  · rw [if_pos hm]
    exact ⟨s, _, rfl, fun _ => rfl, fun h => absurd h (by simp)⟩
  · rw [if_neg hm]
    rcases hreq : x.newRequest (s.connectMaster ++ "/api/agent") with _ | err
    · rcases hh : f.http with err | ⟨status, body⟩
      · exact ⟨s, _, rfl, fun _ => rfl, fun h => absurd h (by simp)⟩
      · by_cases hs : status = 200
        · simp only [hs, ne_eq, not_true_eq_false, if_false]
          cases body with
          | readError err => exact ⟨s, _, rfl, fun _ => rfl, fun h => absurd h (by simp)⟩
          | jsonError err => exact ⟨s, _, rfl, fun _ => rfl, fun h => absurd h (by simp)⟩
          | jsonNull => exact ⟨s, _, rfl, fun _ => rfl, fun h => absurd h (by simp)⟩
          | envelope raw code data =>
            by_cases hc : code = 200
            · simp only [hc, ne_eq, not_true_eq_false, if_false]
              cases data with
              | none => exact ⟨s, _, rfl, fun _ => rfl, fun h => absurd h (by simp)⟩
              | some config =>
                obtain ⟨s1, r, h1, h2, h3⟩ := decodeConfig_spec x f config s
                exact ⟨s1, r, h1, h2,
                  fun hr => (h3 hr).elim (fun agent ha => ⟨raw, config, agent, rfl, ha⟩)⟩
            · simp only [ne_eq, hc, not_false_eq_true, if_true]
              exact ⟨s, _, rfl, fun _ => rfl, fun h => absurd h (by simp)⟩
        · simp only [ne_eq, hs, not_false_eq_true, if_true]
          exact ⟨s, _, rfl, fun _ => rfl, fun h => absurd h (by simp)⟩
    · exact ⟨s, _, rfl, fun _ => rfl, fun h => absurd h (by simp)⟩

/-- Witness of `downloadConfig_atomic`: the master answers with a config that `Validate`
rejects while `T1` is running. -/
theorem downloadConfig_atomic_witness :
    downloadConfig libInvalid (fetchAnswer 200 "a1") (agentRunningT1 (configOf [taskT1v1] []))
        = some (agentRunningT1 (configOf [taskT1v1] []), some "invalid config") ∧
      ∃ s1 r, downloadConfig libInvalid (fetchAnswer 200 "a1")
          (agentRunningT1 (configOf [taskT1v1] [])) = some (s1, r) ∧
        (r ≠ none → s1 = agentRunningT1 (configOf [taskT1v1] [])) :=
  ⟨by decide,
    (downloadConfig_atomic libInvalid (fetchAnswer 200 "a1")
      (agentRunningT1 (configOf [taskT1v1] [])) (by decide)).elim
      (fun s1 h => h.elim (fun r hr => ⟨s1, r, hr.1, hr.2.1⟩))⟩

/-! ## Distinctness of the running executors is an invariant -/

theorem tasksWF_of_same_tasks (s s1 : Agent) (hwf : TasksWF s)
    (ht : s1.runningTasks = s.runningTasks) (hn : s.nextUid ≤ s1.nextUid) : TasksWF s1 := by
  refine ⟨by rw [ht]; exact hwf.1, fun p hp => ?_⟩
  rw [ht] at hp
  exact lt_of_lt_of_le (hwf.2 p hp) hn

theorem scheduleTasks_preserves_wf (x : Lib) (s s1 : Agent) (r : Option String)
    (hwf : TasksWF s) (h : scheduleTasks x s = some (s1, r)) : TasksWF s1 := by
  rcases hcfg : s.runningAgent with _ | agent
  · simp [scheduleTasks, hcfg] at h
  · have hon := enabledTasks_on agent.Apps
    have hloop : TasksWF (runTasks x (enabledTasks agent.Apps)
        (s.emit Effect.enterScheduleTasks, [])).1.1 :=
      runTasks_invariant x (fun st => TasksWF st.1) (enabledTasks agent.Apps)
        (fun p hp st hst => scheduleTask_wf x p.1 p.2 st (hon p hp) hst)
        (s.emit Effect.enterScheduleTasks, []) hwf
    rw [scheduleTasks_run x s agent hcfg] at h
    rcases hres : runTasks x (enabledTasks agent.Apps) (s.emit Effect.enterScheduleTasks, [])
      with ⟨st, _ | err⟩
    · rw [hres] at h hloop
      simp only [Option.some.injEq, Prod.mk.injEq] at h
      obtain ⟨_, _, c3, c4, _⟩ := cleanScripts_spec x st.2
        (stopAbsentTasks st.2 st.1.runningTasks st.1).agentsDir
        (stopAbsentTasks st.2 st.1.runningTasks st.1)
      obtain ⟨_, _, _, d4, _, d6⟩ := stopAbsentTasks_spec st.2 st.1.runningTasks st.1
      rw [← h.1]
      refine ⟨?_, fun p hp => ?_⟩
      · rw [c3, d6]
        exact List.Nodup.sublist (List.Sublist.map _ (List.filter_sublist _)) hloop.1
      · rw [c3, d6] at hp
        rw [c4, d4]
        exact hloop.2 p (List.mem_of_mem_filter hp)
    · rw [hres] at h hloop
      simp only [Option.some.injEq, Prod.mk.injEq] at h
      rw [← h.1]
      exact hloop

theorem scheduleItems_preserves_wf (s s1 : Agent) (r : Option String)
    (hwf : TasksWF s) (h : scheduleItems s = some (s1, r)) : TasksWF s1 := by
  rcases hcfg : s.runningAgent with _ | agent
  · simp [scheduleItems, hcfg] at h
  · obtain ⟨_, b2, _, b4, _⟩ := runItems_basic (enabledItems agent.Apps)
      (enabledItems_on agent.Apps) (s.emit Effect.enterScheduleItems, [])
    obtain ⟨_, d2, _, d4, _⟩ := stopAbsentItems_spec
      (runItems (enabledItems agent.Apps) (s.emit Effect.enterScheduleItems, [])).2
      (runItems (enabledItems agent.Apps) (s.emit Effect.enterScheduleItems, [])).1.runningItems
      (runItems (enabledItems agent.Apps) (s.emit Effect.enterScheduleItems, [])).1
    rw [scheduleItems_run s agent hcfg] at h
    simp only [Option.some.injEq, Prod.mk.injEq] at h
    rw [← h.1]
    exact tasksWF_of_same_tasks s _ hwf (d2.trans b4) (by rw [d4]; exact b2)

theorem loadLocalConfig_preserves_wf (x : Lib) (reads : List (Option AgentConfig))
    (s s1 : Agent) (r : Option String) (hwf : TasksWF s)
    (h : loadLocalConfig x reads s = some (s1, r)) : TasksWF s1 := by
  induction reads with
  | nil => simp [loadLocalConfig] at h
  | cons a rest ih =>
    cases a with
    | none => exact ih (by simpa [loadLocalConfig] using h)
    | some agent =>
      rcases hv : x.validate agent with _ | err
      · simp only [loadLocalConfig, hv] at h
        by_cases hb : s.isBooting = false
        · simp only [hb, if_true] at h
          refine scheduleTasks_preserves_wf x _ s1 r ?_ h
          exact tasksWF_of_same_tasks s _ hwf rfl (le_refl _)
        · have hb1 : s.isBooting = true := by simpa using hb
          simp only [hb1, Bool.true_eq_false, if_false, Option.some.injEq,
            Prod.mk.injEq] at h
          rw [← h.1]
          exact hwf
      · exact ih (by simpa [loadLocalConfig, hv] using h)

theorem installConfig_preserves_wf (x : Lib) (f : Fetch) (agent : AgentConfig)
    (s s1 : Agent) (r : Option String) (hwf : TasksWF s)
    (h : installConfig x f agent s = some (s1, r)) : TasksWF s1 := by
  unfold installConfig at h
  rcases hm : (if f.agentsIsDir = false then f.mkdir else none) with _ | err
  · rcases hw : f.write with _ | err
    · simp only [hm, hw] at h
      by_cases hb : s.isBooting = false
      · simp only [hb, if_true] at h
        rcases h1 : scheduleTasks x
            { s with
              agentsDir := addFile s.agentsDir ("agent." ++ agent.Id ++ ".conf")
              runningAgent := some agent
              connectId := agent.Id
              connectKey := agent.Key } with _ | r1
        · rw [hb] at h1
          simp [h1] at h
        · rw [hb] at h1
          simp only [h1] at h
          rcases h2 : scheduleItems r1.1 with _ | r2
          · simp [h2] at h
          · simp only [h2, Option.some.injEq, Prod.mk.injEq] at h
            rw [← h.1]
            have hw1 : TasksWF r1.1 := by
              refine scheduleTasks_preserves_wf x _ r1.1 r1.2 ?_ h1
              exact tasksWF_of_same_tasks s _ hwf rfl (le_refl _)
            exact scheduleItems_preserves_wf r1.1 r2.1 r2.2 hw1 h2
      · have hb1 : s.isBooting = true := by simpa using hb
        simp only [hb1, Bool.true_eq_false, if_false, Option.some.injEq, Prod.mk.injEq] at h
        rw [← h.1]
        exact tasksWF_of_same_tasks s _ hwf rfl (le_refl _)
    · simp only [hm, hw, Option.some.injEq, Prod.mk.injEq] at h
      rw [← h.1]
      exact hwf
  · simp only [hm, Option.some.injEq, Prod.mk.injEq] at h
    rw [← h.1]
    exact hwf

theorem decodeConfig_preserves_wf (x : Lib) (f : Fetch) (config : String)
    (s s1 : Agent) (r : Option String) (hwf : TasksWF s)
    (h : decodeConfig x f config s = some (s1, r)) : TasksWF s1 := by
  unfold decodeConfig at h
  rcases hy : x.yamlUnmarshal config with err | agent
  · simp only [hy, Option.some.injEq, Prod.mk.injEq] at h
    rw [← h.1]
    exact hwf
  · simp only [hy] at h
    by_cases hid : agent.Id.length = 0
    · simp only [hid, if_true, Option.some.injEq, Prod.mk.injEq] at h
      rw [← h.1]
      exact hwf
    · rcases hv : x.validate agent with _ | err
      · simp only [hid, if_false, hv] at h
        exact installConfig_preserves_wf x f agent s s1 r hwf h
      · simp only [hid, if_false, hv, Option.some.injEq, Prod.mk.injEq] at h
        rw [← h.1]
        exact hwf

/-- Every return of `downloadConfig` keeps the running executors distinct. -/
theorem downloadConfig_preserves_wf (x : Lib) (f : Fetch) (s s1 : Agent) (r : Option String)
    (hwf : TasksWF s) (h : downloadConfig x f s = some (s1, r)) : TasksWF s1 := by
  by_cases hlocal : s.connectId = "local"
  · simp only [downloadConfig, if_pos hlocal] at h
    rcases hl : loadLocalConfig x f.localReads s with _ | r1
    · simp [hl] at h
    · simp only [hl, Option.some.injEq, Prod.mk.injEq] at h
      rw [← h.1]
      exact loadLocalConfig_preserves_wf x f.localReads s r1.1 r1.2 hwf hl
  · have hkeep : ∀ e : String, some (s, some e) = some (s1, r) → TasksWF s1 := by
      intro e he
      simp only [Option.some.injEq, Prod.mk.injEq] at he
      rw [← he.1]
      exact hwf
    simp only [downloadConfig, if_neg hlocal] at h
    by_cases hm : s.connectMaster.length = 0
    · rw [if_pos hm] at h
      exact hkeep _ h
    · rw [if_neg hm] at h
      rcases hreq : x.newRequest (s.connectMaster ++ "/api/agent") with _ | err
      · simp only [hreq] at h
        rcases hh : f.http with err | ⟨status, body⟩
        · simp only [hh] at h
          exact hkeep _ h
        · simp only [hh] at h
          by_cases hs : status = 200
          · simp only [hs, ne_eq, not_true_eq_false, if_false] at h
            cases body with
            | readError err => exact hkeep _ h
            | jsonError err => exact hkeep _ h
            | jsonNull => exact hkeep _ h
            | envelope raw code data =>
              by_cases hc : code = 200
              · simp only [hc, ne_eq, not_true_eq_false, if_false] at h
                cases data with
                | none => exact hkeep _ h
                | some config => exact decodeConfig_preserves_wf x f config s s1 r hwf h
              · simp only [ne_eq, hc, not_false_eq_true, if_true] at h
                exact hkeep _ h
          · simp only [ne_eq, hs, not_false_eq_true, if_true] at h
            exact hkeep _ h
      · simp only [hreq] at h
        exact hkeep _ h

theorem dispatchEvent_preserves_wf (x : Lib) (ev : PullEvent) (s s1 : Agent)
    (hwf : TasksWF s) (h : dispatchEvent x ev s = some s1) : TasksWF s1 := by
  unfold dispatchEvent at h
  rcases hb : ev.body with _ | ⟨name, data⟩
  · simp only [hb, Option.some.injEq] at h
    rw [← h]
    exact hwf
  · simp only [hb] at h
    by_cases hre : name ∈ refetchEvents
    · rw [if_pos hre] at h
      rcases hd : downloadConfig x ev.fetch s with _ | r
      · simp [hd] at h
      · simp only [hd, Option.some.injEq] at h
        rw [← h]
        exact downloadConfig_preserves_wf x ev.fetch s r.1 r.2 hwf hd
    · rw [if_neg hre] at h
      by_cases hrun : name = "RUN_TASK"
      · rw [if_pos hrun] at h
        cases data with
        | none =>
          simp only [Option.some.injEq] at h
          rw [← h]
          exact hwf
        | some taskId =>
          rcases hcfg : s.runningAgent with _ | agent
          · simp [hcfg] at h
          · simp only [hcfg] at h
            rcases hf : FindTask taskId agent.Apps with _ | found
            · simp only [hf, Option.some.injEq] at h
              rw [← h]
              exact hwf
            · simp only [hf, Option.some.injEq] at h
              rw [← h]
              exact tasksWF_of_same_tasks s _ hwf rfl (Nat.le_succ _)
      · rw [if_neg hrun] at h
        simp only [Option.some.injEq] at h
        rw [← h]
        exact hwf

theorem dispatchEvents_preserves_wf (x : Lib) (events : List PullEvent) (s s1 : Agent)
    (hwf : TasksWF s) (h : dispatchEvents x events s = some s1) : TasksWF s1 := by
  induction events generalizing s with
  | nil =>
    simp only [dispatchEvents, Option.some.injEq] at h
    rw [← h]
    exact hwf
  | cons ev rest ih =>
    simp only [dispatchEvents] at h
    rcases hd : dispatchEvent x ev s with _ | s2
    · simp [hd] at h
    · simp only [hd] at h
      exact ih s2 (dispatchEvent_preserves_wf x ev s s2 hwf hd) h

/-- Every return of `pullEvents` keeps the running executors distinct; together with the
lemmas above and the empty map at boot, `TasksWF` holds in every state the agent reaches. -/
theorem pullEvents_preserves_wf (x : Lib) (p : Pull) (s s1 : Agent) (r : Option String)
    (hwf : TasksWF s) (h : pullEvents x p s = some (s1, r)) : TasksWF s1 := by
  have hkeep : ∀ e : Option String, some (s, e) = some (s1, r) → TasksWF s1 := by
    intro e he
    simp only [Option.some.injEq, Prod.mk.injEq] at he
    rw [← he.1]
    exact hwf
  unfold pullEvents at h
  by_cases hm : s.connectMaster.length = 0
  · rw [if_pos hm] at h
    exact hkeep _ h
  · rw [if_neg hm] at h
    rcases hreq : x.newRequest (s.connectMaster ++ "/api/agent/pull") with _ | err
    · simp only [hreq] at h
      rcases hh : p.http with err | ⟨status, body⟩
      · simp only [hh] at h
        by_cases hf : connectingFailedAfter p.dials = true
        · rw [if_pos hf] at h
          exact hkeep _ h
        · rw [if_neg hf] at h
          exact hkeep _ h
      · simp only [hh] at h
        by_cases hs : status = 200
        · simp only [hs, ne_eq, not_true_eq_false, if_false] at h
          cases body with
          | readError err => exact hkeep _ h
          | jsonError err => exact hkeep _ h
          | jsonNull => exact hkeep _ h
          | envelope raw code data =>
            by_cases hc : code = 200
            · simp only [hc, ne_eq, not_true_eq_false, if_false] at h
              cases data with
              | none => exact hkeep _ h
              | some events =>
                cases events with
                | none => exact hkeep _ h
                | some evs =>
                  simp only [] at h
                  rcases hd : dispatchEvents x evs s with _ | s2
                  · simp [hd] at h
                  · simp only [hd, Option.some.injEq, Prod.mk.injEq] at h
                    rw [← h.1]
                    exact dispatchEvents_preserves_wf x evs s s2 hwf hd
            · simp only [ne_eq, hc, not_false_eq_true, if_true] at h
              exact hkeep _ h
        · simp only [ne_eq, hs, not_false_eq_true, if_true] at h
          exact hkeep _ h
    · simp only [hreq] at h
      exact hkeep _ h

/-- At boot `runningTasks` is the empty map, whose executors are trivially distinct. -/
theorem tasksWF_of_empty (s : Agent) (h : s.runningTasks = []) : TasksWF s := by
  refine ⟨by rw [h]; exact List.nodup_nil, fun p hp => ?_⟩
  rw [h] at hp
  exact absurd hp (List.not_mem_nil _)

end TeaAgent
